import Mathlib

/-!
Verification development for the blogwarrior table store
(src/src/table.rs, src/src/git.rs, src/src/store.rs, src/src/commands/sync.rs).

Modelling conventions:
* Rust `String` / `&str` values (file names, ids, natural keys, file contents,
  git status paths) are embedded as `List Char`, written `Str` below; UTF-8
  byte-lexicographic order on Rust strings coincides with code-point
  lexicographic order on `List Char`.
* `chrono::DateTime<Utc>` timestamps are embedded as `Nat`; `Utc::now()` is an
  explicit `now : Nat` argument threaded into the mutating operations.
* The SHA-256 digest used by `hash_id` comes from the external `sha2` crate;
  it is abstracted as a parameter `sha256hex : Str → Str` (the lowercase hex
  digest of the input).  No claim below depends on any property of the digest.
* serde_json row (de)serialization comes from the external `serde_json`
  crate; it is abstracted as parameters `enc : Row T → Str` (serialization of
  one row, no trailing newline) and `dec : Str → Option (Row T)` (parsing one
  line), with the serde round-trip facts taken as hypotheses where a theorem
  needs them.
* `std::collections::HashMap<String, _>` is embedded as an association list
  with distinct keys; `insert` replaces the existing binding in place.
  Iteration order of a `HashMap` is unspecified, so determinism statements
  quantify over permutations of the entry list.
* The table directory on disk is a list of named directory entries; a file
  that `File::open` refuses is `FileAccess.openFail`, a readable file carries
  its content and a flag telling whether a line read fails at the end.
  A missing directory (`fs::read_dir` error) is `none : Option (List DirEntry)`.
-/

set_option synthInstance.maxHeartbeats 400000
set_option maxHeartbeats 1600000

namespace Blogwarrior

abbrev Str := List Char

/-- `Row<T>` from src/src/table.rs: a tagged sum of a tombstone
(`id`, `deleted_at`) and a live row (`id`, flattened payload, optional
`updated_at`). -/
inductive Row (T : Type) where
  | tombstone (id : Str) (deleted_at : Nat)
  | live (id : Str) (inner : T) (updated_at : Option Nat)
  deriving DecidableEq

/-- `Row::id` from src/src/table.rs. -/
def Row.id {T : Type} : Row T → Str
  | .tombstone i _ => i
  | .live i _ _ => i

/-- Lookup in the embedded `HashMap<String, _>` (first binding wins; the
map invariantly has distinct keys). -/
def mapLookup {α : Type} : List (Str × α) → Str → Option α
  | [], _ => none
  | (k, v) :: t, k' => if k = k' then some v else mapLookup t k'

/-- `HashMap::insert`: replace the existing binding for the key, or append a
new binding. -/
def mapInsert {α : Type} : List (Str × α) → Str → α → List (Str × α)
  | [], k, v => [(k, v)]
  | (k', v') :: t, k, v => if k' = k then (k, v) :: t else (k', v') :: mapInsert t k v

/-- `hash_id` from src/src/table.rs: the lowercase hex SHA-256 digest of the
raw key, truncated to `id_length` characters.  The digest itself (external
`sha2` crate) is the parameter `sha256hex`. -/
def hash_id (sha256hex : Str → Str) (raw : Str) (id_length : Nat) : Str :=
  (sha256hex raw).take id_length

/-- `Table<T>` from src/src/table.rs.  The directory path is not stored: the
on-disk directory is passed explicitly to `load` and `save`. -/
structure Table (T : Type) where
  items : List (Str × Row T)
  shard_characters : Nat
  id_length : Nat
  deriving DecidableEq

/-- `Table::upsert` from src/src/table.rs: hash the natural key; if the map
holds a live row with a structurally equal payload at that id, do nothing;
otherwise insert a fresh live row stamped `now`. -/
def Table.upsert {T : Type} [DecidableEq T] (sha256hex : Str → Str) (key : T → Str)
    (tbl : Table T) (item : T) (now : Nat) : Table T :=
  let i := hash_id sha256hex (key item) tbl.id_length
  match mapLookup tbl.items i with
  | some (Row.live _ existing _) =>
      if item = existing then tbl
      else { tbl with items := mapInsert tbl.items i (Row.live i item (some now)) }
  | _ => { tbl with items := mapInsert tbl.items i (Row.live i item (some now)) }

/-- `Table::delete` from src/src/table.rs: hash the key; if the map holds a
live row at that id, replace it with a tombstone stamped `now` and return the
id, otherwise return `none` and leave the map unchanged. -/
def Table.delete {T : Type} (sha256hex : Str → Str)
    (tbl : Table T) (key : Str) (now : Nat) : Option Str × Table T :=
  let i := hash_id sha256hex key tbl.id_length
  match mapLookup tbl.items i with
  | some (Row.live _ _ _) =>
      (some i, { tbl with items := mapInsert tbl.items i (Row.tombstone i now) })
  | _ => (none, tbl)

/-- `Table::id_of` from src/src/table.rs. -/
def Table.id_of {T : Type} (sha256hex : Str → Str) (key : T → Str)
    (tbl : Table T) (item : T) : Str :=
  hash_id sha256hex (key item) tbl.id_length

/-- `Table::shard_key` from src/src/table.rs: the first
`min(shard_characters, id.len())` characters of the id (`List.take` already
clamps at the length). -/
def shardKey (shard_characters : Nat) (i : Str) : Str :=
  i.take shard_characters

/-- `Table::items` (the iteration method) from src/src/table.rs: the payloads
of all live rows; tombstones are not observable. -/
def Table.liveValues {T : Type} (tbl : Table T) : List T :=
  tbl.items.foldr (fun kv acc =>
    match kv.2 with
    | Row.live _ inner _ => inner :: acc
    | Row.tombstone _ _ => acc) []

/-! ## The on-disk table directory -/

/-- The observable behaviour of one file in the table directory.
`openFail` models a present file that `File::open` refuses; `readable`
carries the byte content and a flag telling whether the `BufRead::lines`
iterator yields an I/O error after the content has been read. -/
inductive FileAccess where
  | openFail
  | readable (content : Str) (readErr : Bool)
  deriving DecidableEq

/-- One entry of the table directory, as enumerated by `fs::read_dir`. -/
structure DirEntry where
  name : Str
  access : FileAccess
  deriving DecidableEq

/-- Lookup a directory entry by file name (directory listings have distinct
names; the model takes the first). -/
def fsLookup : List DirEntry → Str → Option FileAccess
  | [], _ => none
  | e :: t, n => if e.name = n then some e.access else fsLookup t n

/-- `fs::write`: create or truncate the named file with the given content. -/
def fsWrite : List DirEntry → Str → Str → List DirEntry
  | [], n, c => [⟨n, .readable c false⟩]
  | e :: t, n, c => if e.name = n then ⟨n, .readable c false⟩ :: t else e :: fsWrite t n c

/-- `fs::remove_file`: drop every entry carrying the name. -/
def fsRemove (fs : List DirEntry) (n : Str) : List DirEntry :=
  fs.filter (fun e => !(e.name = n : Bool))

/-- `fs::rename`: move the entry at `old` to `new` (no-op if absent, which
does not happen on the paths the store takes). -/
def fsRename (fs : List DirEntry) (old new : Str) : List DirEntry :=
  match fsLookup fs old with
  | none => fs
  | some a => fsRemove (fsRemove fs old) new ++ [⟨new, a⟩]

/-- The file-name filter shared by `Table::load` and `Table::save` Phase 2:
`fname.starts_with("items_") && fname.ends_with(".jsonl")`. -/
def isShardFileName (n : Str) : Bool :=
  "items_".toList.isPrefixOf n && ".jsonl".toList.isSuffixOf n

/-- `Table::save` Phase 2 additionally rejects `.tmp` names (redundant with
the `.jsonl` suffix check, but present in the source). -/
def isRemovableFinal (n : Str) : Bool :=
  isShardFileName n && !(".tmp".toList.isSuffixOf n)

/-- Temporary shard file name written in Phase 1. -/
def tmpName (pfx : Str) : Str :=
  "items_".toList ++ pfx ++ ".jsonl.tmp".toList

/-- Final shard file name. -/
def finalName (pfx : Str) : Str :=
  "items_".toList ++ pfx ++ ".jsonl".toList

/-! ## Load -/

/-- Errors `Table::load` can produce. -/
inductive LoadErr where
  | parseError (file : Str)
  | readLineError
  deriving DecidableEq

/-- `line.trim().is_empty()`. -/
def isBlank (l : Str) : Bool :=
  l.all Char.isWhitespace

/-- Split a file content into the lines yielded by `BufRead::lines`
(the Rust iterator omits a final empty segment after a trailing newline;
the extra empty segment this model produces is blank and is skipped by the
caller, so the loaded state agrees). -/
def splitLines : Str → List Str
  | [] => [[]]
  | a :: rest =>
    match splitLines rest with
    | [] => [[a]]
    | h :: t => if a = '\n' then [] :: h :: t else (a :: h) :: t

/-- The per-line loop of `Table::load`: skip blank lines, parse each other
line as a `Row<T>` (a parse failure names the offending file), and insert the
row into the map by its id. -/
def parseLines {T : Type} (dec : Str → Option (Row T)) (fname : Str) :
    List Str → List (Str × Row T) → Except LoadErr (List (Str × Row T))
  | [], acc => .ok acc
  | l :: rest, acc =>
    if isBlank l then parseLines dec fname rest acc
    else
      match dec l with
      | none => .error (.parseError fname)
      | some r => parseLines dec fname rest (mapInsert acc r.id r)

/-- The per-entry loop of `Table::load`: entries whose names do not match
`items_*.jsonl` are ignored; a matching entry that cannot be opened is
skipped by the `let Ok(file) = File::open` condition; a line-read error on an
opened file aborts the load. -/
def loadFiles {T : Type} (dec : Str → Option (Row T)) :
    List DirEntry → List (Str × Row T) → Except LoadErr (List (Str × Row T))
  | [], acc => .ok acc
  | e :: rest, acc =>
    if isShardFileName e.name then
      match e.access with
      | .openFail => loadFiles dec rest acc
      | .readable content readErr =>
        match parseLines dec e.name (splitLines content) acc with
        | .error err => .error err
        | .ok acc' =>
          if readErr then .error .readLineError else loadFiles dec rest acc'
    else loadFiles dec rest acc

/-- `Table::load` from src/src/table.rs.  `dir = none` models a missing table
directory (`fs::read_dir` fails), which yields an empty table. -/
def Table.load {T : Type} (dec : Str → Option (Row T))
    (shard_characters id_length : Nat) (dir : Option (List DirEntry)) :
    Except LoadErr (Table T) :=
  match dir with
  | none => .ok ⟨[], shard_characters, id_length⟩
  | some entries =>
    match loadFiles dec entries [] with
    | .error e => .error e
    | .ok items => .ok ⟨items, shard_characters, id_length⟩

/-! ## Save -/

/-- Errors `Table::save` can produce in Phase 1 (a failed `fs::write`). -/
inductive SaveErr where
  | writeFailed (path : Str)
  deriving DecidableEq

/-- `shards.entry(key).or_default().push(row)`: append the row to its shard
bucket, creating the bucket on first encounter.  The `HashMap<String, Vec<_>>`
of buckets is embedded as an association list in first-encounter order, with
one bucket per key. -/
def groupInsert {T : Type} (sc : Nat) : List (Str × List (Row T)) → Row T →
    List (Str × List (Row T))
  | [], r => [(shardKey sc r.id, [r])]
  | (k, g) :: t, r =>
    if k = shardKey sc r.id then (k, g ++ [r]) :: t
    else (k, g) :: groupInsert sc t r

/-- The grouping loop of `Table::save`: fold every row of the map into its
shard bucket. -/
def groupByShard {T : Type} (sc : Nat) (items : List (Str × Row T)) :
    List (Str × List (Row T)) :=
  items.foldl (fun m kv => groupInsert sc m kv.2) []

/-- Byte-lexicographic comparison of ids, as `str::cmp` orders Rust strings
(UTF-8 byte order agrees with code-point order). -/
def lexLe : Str → Str → Bool
  | [], _ => true
  | _ :: _, [] => false
  | a :: as_, b :: bs => if a = b then lexLe as_ bs else decide (a < b)

/-- `rows.sort_by(|a, b| a.id().cmp(b.id()))`. -/
def sortRows {T : Type} (rows : List (Row T)) : List (Row T) :=
  rows.insertionSort (fun a b => lexLe a.id b.id = true)

/-- Serialize one shard: one JSON object per row, each line LF-terminated
(`out.push_str(&serde_json::to_string(row)); out.push('\n')`). -/
def encodeRows {T : Type} (enc : Row T → Str) : List (Row T) → Str
  | [] => []
  | r :: rs => enc r ++ '\n' :: encodeRows enc rs

/-- Phase 1 of `Table::save`: write each shard group, sorted by id, to its
temporary file.  `wfail` tells which write attempts fail (injected I/O
failure); on the first failure the failed temporary and every previously
written temporary are removed and the error is returned together with the
directory state at that point. -/
def savePhase1 {T : Type} (enc : Row T → Str) (wfail : Str → Bool) :
    List (Str × List (Row T)) → List DirEntry → List (Str × Str) →
    List DirEntry × List (Str × Str) × Option SaveErr
  | [], fs, tmps => (fs, tmps, none)
  | (pfx, rows) :: rest, fs, tmps =>
    let out := encodeRows enc (sortRows rows)
    let tp := tmpName pfx
    if wfail tp then
      ((tmps.map Prod.fst).foldl fsRemove (fsRemove fs tp), tmps,
        some (.writeFailed tp))
    else
      savePhase1 enc wfail rest (fsWrite fs tp out) (tmps ++ [(tp, finalName pfx)])

/-- `Table::save` from src/src/table.rs: ensure the directory exists
(`dir.getD []`), group rows by shard key, write sorted temporaries (Phase 1),
remove every final-named shard file (Phase 2), rename temporaries to their
final names (Phase 3).  Returns the resulting directory and the error, if
any. -/
def Table.save {T : Type} (enc : Row T → Str) (tbl : Table T)
    (dir : Option (List DirEntry)) (wfail : Str → Bool) :
    List DirEntry × Option SaveErr :=
  let fs0 := dir.getD []
  let groups := groupByShard tbl.shard_characters tbl.items
  match savePhase1 enc wfail groups fs0 [] with
  | (fs1, _, some e) => (fs1, some e)
  | (fs1, tmps, none) =>
    let fs2 := fs1.filter (fun e => !(isRemovableFinal e.name))
    let fs3 := tmps.foldl (fun fs pr => fsRename fs pr.1 pr.2) fs2
    (fs3, none)

/-! ## Merge from remote -/

/-- The timestamp of a row used by the last-writer-wins merge: `deleted_at`
for a tombstone, the optional `updated_at` for a live row. -/
def Row.mergeTs {T : Type} : Row T → Option Nat
  | .tombstone _ d => some d
  | .live _ _ u => u

/-- Order on optional timestamps, as `Ord` on `Option<DateTime<Utc>>` in
Rust: an absent timestamp sorts below every present one. -/
def optTsLt : Option Nat → Option Nat → Bool
  | none, some _ => true
  | none, none => false
  | some _, none => false
  | some a, some b => decide (a < b)

/-- Modelled from the spec: `Table::merge_remote` lives in the external
`synctato` crate and is absent from src/ (only its caller `cmd_sync` in
src/src/commands/sync.rs is present).  Spec section 4.2.6: for each
`(id, remote_row)` of the input, the row with the larger of
`updated_at` / `deleted_at` wins and ties break toward the local row;
entries present only remotely are adopted; entries present only locally are
kept. -/
def Table.mergeRemote {T : Type} : Table T → List (Str × Row T) → Table T
  | tbl, [] => tbl
  | tbl, (k, rr) :: rest =>
    match mapLookup tbl.items k with
    | none => Table.mergeRemote { tbl with items := mapInsert tbl.items k rr } rest
    | some localRow =>
      if optTsLt localRow.mergeTs rr.mergeTs then
        Table.mergeRemote { tbl with items := mapInsert tbl.items k rr } rest
      else Table.mergeRemote tbl rest

/-! ## Git cleanliness check (src/src/git.rs) -/

/-- `is_data_file` from src/src/git.rs:
`path.contains('/') && path.ends_with(".jsonl")`. -/
def is_data_file (path : Str) : Bool :=
  path.contains '/' && ".jsonl".toList.isSuffixOf path

/-- `is_clean` from src/src/git.rs: the tree is dirty iff some status entry
path satisfies `is_data_file`.  `statuses` is the list of paths reported by
`repo.statuses(None)` (every modified or untracked path). -/
def is_clean (statuses : List Str) : Bool :=
  !(statuses.any is_data_file)

/-- `DirtyTree` error from `ensure_clean`. -/
inductive GitErr where
  | dirtyTree
  deriving DecidableEq

/-- `ensure_clean` from src/src/git.rs. -/
def ensure_clean (statuses : List Str) : Except GitErr Unit :=
  if is_clean statuses then .ok () else .error .dirtyTree

/-- The precondition step of `cmd_sync` (src/src/commands/sync.rs lines
26-30): when a repository is present, require a clean tree before any work;
with no repository the check is skipped. -/
def syncCleanCheck (repo : Option (List Str)) : Except GitErr Unit :=
  match repo with
  | none => .ok ()
  | some statuses => ensure_clean statuses

/-- The shard-file shape named by the spec: a path of the form
`<table>/items_<pfx>.jsonl` with a slash-free table component.  Used to
compare `is_data_file` against the spec's wording. -/
def SpecShardPath (p : Str) : Prop :=
  ∃ t x, ('/' : Char) ∉ t ∧
    p = t ++ '/' :: ("items_".toList ++ x ++ ".jsonl".toList)

/-! ## Database and transactions (src/src/store.rs) -/

/-- `Store` from src/src/store.rs: the feeds table and the posts table. -/
structure Store (TF TP : Type) where
  feeds : Table TF
  posts : Table TP

/-- `Store::transaction` from src/src/store.rs: run `f` with mutable access
to both tables (embedded as state passing: `f` returns the mutated tables
together with its result); if `f` fails, propagate the error without saving
either table; otherwise save the feeds table and then the posts table,
propagating the first save error.  The two table directories are threaded
explicitly; the returned pair of directories is the on-disk state after the
call. -/
def Store.transaction {TF TP α : Type} (encF : Row TF → Str) (encP : Row TP → Str)
    (s : Store TF TP) (dF dP : Option (List DirEntry))
    (wfailF wfailP : Str → Bool)
    (f : Table TF → Table TP → Table TF × Table TP × Except SaveErr α) :
    Except SaveErr α × Store TF TP × Option (List DirEntry) × Option (List DirEntry) :=
  match f s.feeds s.posts with
  | (feeds', posts', .error e) => (.error e, ⟨feeds', posts'⟩, dF, dP)
  | (feeds', posts', .ok a) =>
    match Table.save encF feeds' dF wfailF with
    | (fsF, some e) => (.error e, ⟨feeds', posts'⟩, some fsF, dP)
    | (fsF, none) =>
      match Table.save encP posts' dP wfailP with
      | (fsP, some e) => (.error e, ⟨feeds', posts'⟩, some fsF, some fsP)
      | (fsP, none) => (.ok a, ⟨feeds', posts'⟩, some fsF, some fsP)

/-! ## Mutation sequences and the map invariant -/

/-- One table mutation: an upsert of a payload or a delete by natural key,
each carrying the clock value the operation observes. -/
inductive Op (T : Type) where
  | upsert (v : T) (now : Nat)
  | delete (k : Str) (now : Nat)

/-- Apply a sequence of upserts and deletes to a table. -/
def Table.applyOps {T : Type} [DecidableEq T] (sha256hex : Str → Str)
    (key : T → Str) (tbl : Table T) : List (Op T) → Table T
  | [] => tbl
  | .upsert v now :: rest =>
      Table.applyOps sha256hex key (tbl.upsert sha256hex key v now) rest
  | .delete k now :: rest =>
      Table.applyOps sha256hex key (tbl.delete sha256hex k now).2 rest

/-- The in-memory map invariant: map keys are distinct and every row is
stored under the id embedded in the row itself. -/
def Table.WF {T : Type} (tbl : Table T) : Prop :=
  (tbl.items.map Prod.fst).Nodup ∧ ∀ kv ∈ tbl.items, (kv.2).id = kv.1

/-- Well-formedness of a partially loaded map, as maintained by `parseLines`
and `loadFiles`. -/
def accWF {T : Type} (acc : List (Str × Row T)) : Prop :=
  (acc.map Prod.fst).Nodup ∧ ∀ kv ∈ acc, (kv.2).id = kv.1

/-- The tombstone sentence of claim C2 exactly as stated: merging a single
remote tombstone into a table holding a live row at the same id replaces the
live row iff the tombstone's `deleted_at` is not earlier than the live row's
`updated_at`. -/
def TombstoneBeatsLiveClaim : Prop :=
  ∀ (k : Str) (u d : Nat),
    (mapLookup ((⟨[(k, Row.live k () (some u))], 0, 4⟩ : Table Unit).mergeRemote
        [(k, Row.tombstone k d)]).items k
      = some (Row.tombstone k d)) ↔ ¬ d < u

/-- The sub-list of directory entries whose names match the
`items_*.jsonl` filter; `Table::load` reads exactly these entries. -/
def shardView (fs : List DirEntry) : List DirEntry :=
  fs.filter (fun e => isShardFileName e.name)

/-! ## File-name lemmas -/

theorem prefix_append_iff_of_le {c x : List Char} (y : List Char)
    (h : c.length ≤ x.length) : c <+: (x ++ y) ↔ c <+: x := by
  constructor
  · intro hp
    have hp' := List.prefix_iff_eq_take.mp hp
    rw [List.take_append_of_le_length h] at hp'
    exact List.prefix_iff_eq_take.mpr hp'
  · intro hp
    exact hp.trans (List.prefix_append x y)

theorem suffix_append_iff_of_le {c x : List Char} (y : List Char)
    (h : c.length ≤ x.length) : c <:+ (y ++ x) ↔ c <:+ x := by
  rw [← List.reverse_prefix, ← @List.reverse_prefix _ c x, List.reverse_append]
  exact prefix_append_iff_of_le y.reverse (by simpa using h)

theorem jsonlTmp_decompose : ".jsonl.tmp".toList = ".jsonl".toList ++ ".tmp".toList := by
  decide

theorem tmpName_eq (pfx : Str) :
    tmpName pfx = (("items_".toList ++ pfx) ++ ".jsonl".toList) ++ ".tmp".toList := by
  unfold tmpName
  rw [jsonlTmp_decompose]
  simp [List.append_assoc]

theorem not_jsonl_suffixOf_append_tmp (y : Str) :
    ".jsonl".toList.isSuffixOf (y ++ ".tmp".toList) = false := by
  by_contra h
  rw [Bool.not_eq_false, List.isSuffixOf_iff_suffix] at h
  rcases List.suffix_or_suffix_of_suffix h
      (List.suffix_append y ".tmp".toList) with h2 | h2
  · exact absurd (List.IsSuffix.length_le h2) (by decide)
  · exact absurd h2 (by decide)

theorem isShardFileName_finalName (pfx : Str) :
    isShardFileName (finalName pfx) = true := by
  unfold isShardFileName finalName
  rw [Bool.and_eq_true, List.isPrefixOf_iff_prefix, List.isSuffixOf_iff_suffix]
  constructor
  · rw [List.append_assoc]
    exact List.prefix_append _ _
  · exact List.suffix_append _ _

theorem isShardFileName_tmpName (pfx : Str) :
    isShardFileName (tmpName pfx) = false := by
  unfold isShardFileName
  rw [tmpName_eq]
  rw [not_jsonl_suffixOf_append_tmp]
  simp

theorem shard_not_tmp_suffix {n : Str} (h : isShardFileName n = true) :
    ".tmp".toList.isSuffixOf n = false := by
  rw [isShardFileName, Bool.and_eq_true, List.isSuffixOf_iff_suffix] at h
  by_contra hc
  rw [Bool.not_eq_false, List.isSuffixOf_iff_suffix] at hc
  rcases List.suffix_or_suffix_of_suffix hc h.2 with h2 | h2
  · exact absurd h2 (by decide)
  · exact absurd (List.IsSuffix.length_le h2) (by decide)

theorem isRemovableFinal_eq_isShardFileName (n : Str) :
    isRemovableFinal n = isShardFileName n := by
  unfold isRemovableFinal
  rcases hs : isShardFileName n with _ | _
  · rfl
  · rw [shard_not_tmp_suffix hs]
    rfl

theorem takeWhile_append_stop (c : Char) (r : List Char) :
    ∀ t : List Char, (∀ a ∈ t, a ≠ c) →
      (t ++ c :: r).takeWhile (fun a => !(a = c : Bool)) = t := by
  intro t
  induction t with
  | nil =>
    intro _
    simp [List.takeWhile]
  | cons a t ih =>
    intro h
    have ha : a ≠ c := h a (List.mem_cons_self a t)
    rw [List.cons_append, List.takeWhile_cons, if_pos (by simpa using ha),
      ih (fun b hb => h b (List.mem_cons.mpr (Or.inr hb)))]

/-! ## Association-map lemmas -/

theorem mapLookup_mapInsert_self {α : Type} (m : List (Str × α)) (k : Str) (v : α) :
    mapLookup (mapInsert m k v) k = some v := by
  induction m with
  | nil => simp [mapInsert, mapLookup]
  | cons kv t ih =>
    obtain ⟨k', v'⟩ := kv
    by_cases h : k' = k
    · simp [mapInsert, h, mapLookup]
    · simp [mapInsert, h, mapLookup, ih]

theorem mapLookup_mapInsert_ne {α : Type} (m : List (Str × α)) (k : Str) (v : α)
    (k' : Str) (h : k ≠ k') :
    mapLookup (mapInsert m k v) k' = mapLookup m k' := by
  induction m with
  | nil => simp [mapInsert, mapLookup, h]
  | cons kv t ih =>
    obtain ⟨k0, v0⟩ := kv
    by_cases h0 : k0 = k
    · subst h0
      simp [mapInsert, mapLookup, h]
    · simp only [mapInsert, if_neg h0, mapLookup]
      by_cases h1 : k0 = k'
      · simp [h1]
      · simp [h1, ih]

theorem mem_keys_mapInsert {α : Type} (m : List (Str × α)) (k : Str) (v : α)
    (x : Str) : x ∈ (mapInsert m k v).map Prod.fst → x ∈ m.map Prod.fst ∨ x = k := by
  induction m with
  | nil => intro h; simpa [mapInsert] using h
  | cons kv t ih =>
    obtain ⟨k0, v0⟩ := kv
    intro h
    by_cases h0 : k0 = k
    · rw [mapInsert, if_pos h0] at h
      simp only [List.map_cons, List.mem_cons] at h
      rcases h with h1 | h1
      · right; exact h1
      · left
        rw [List.map_cons, List.mem_cons]
        right; exact h1
    · rw [mapInsert, if_neg h0] at h
      simp only [List.map_cons, List.mem_cons] at h
      rcases h with h1 | h1
      · left
        rw [List.map_cons, List.mem_cons]
        left; exact h1
      · rcases ih h1 with h2 | h2
        · left
          rw [List.map_cons, List.mem_cons]
          right; exact h2
        · right; exact h2

theorem nodup_keys_mapInsert {α : Type} (m : List (Str × α)) (k : Str) (v : α) :
    (m.map Prod.fst).Nodup → ((mapInsert m k v).map Prod.fst).Nodup := by
  induction m with
  | nil => intro _; simp [mapInsert]
  | cons kv t ih =>
    obtain ⟨k0, v0⟩ := kv
    intro h
    simp only [List.map_cons, List.nodup_cons] at h
    by_cases h0 : k0 = k
    · subst h0
      simpa [mapInsert, List.nodup_cons] using h
    · simp only [mapInsert, if_neg h0, List.map_cons, List.nodup_cons]
      refine ⟨fun hmem => ?_, ih h.2⟩
      rcases mem_keys_mapInsert t k v k0 hmem with hm | hm
      · exact h.1 hm
      · exact h0 hm

theorem mem_mapInsert {α : Type} (m : List (Str × α)) (k : Str) (v : α)
    (kv : Str × α) : kv ∈ mapInsert m k v → kv = (k, v) ∨ kv ∈ m := by
  induction m with
  | nil => intro h; simpa [mapInsert] using h
  | cons kv0 t ih =>
    obtain ⟨k0, v0⟩ := kv0
    intro h
    by_cases h0 : k0 = k
    · rw [mapInsert, if_pos h0] at h
      rcases List.mem_cons.mp h with h1 | h1
      · left; exact h1
      · right
        exact List.mem_cons.mpr (Or.inr h1)
    · rw [mapInsert, if_neg h0] at h
      rcases List.mem_cons.mp h with h1 | h1
      · right
        exact List.mem_cons.mpr (Or.inl h1)
      · rcases ih h1 with h2 | h2
        · left; exact h2
        · right
          exact List.mem_cons.mpr (Or.inr h2)

theorem mapLookup_eq_none_iff {α : Type} (m : List (Str × α)) (k : Str) :
    mapLookup m k = none ↔ k ∉ m.map Prod.fst := by
  induction m with
  | nil => simp [mapLookup]
  | cons kv t ih =>
    obtain ⟨k0, v0⟩ := kv
    by_cases h0 : k0 = k
    · subst h0
      simp [mapLookup]
    · simp [mapLookup, h0, ih, Ne.symm h0]

theorem mapLookup_of_mem_nodup {α : Type} (m : List (Str × α)) (k : Str) (v : α) :
    (m.map Prod.fst).Nodup → (k, v) ∈ m → mapLookup m k = some v := by
  induction m with
  | nil => intro _ h; simp at h
  | cons kv t ih =>
    obtain ⟨k0, v0⟩ := kv
    intro hnd h
    simp only [List.map_cons, List.nodup_cons] at hnd
    rcases List.mem_cons.mp h with h | h
    · have h1 : k0 = k := (congrArg Prod.fst h).symm
      have h2 : v0 = v := (congrArg Prod.snd h).symm
      subst h1; subst h2
      simp [mapLookup]
    · have hk : k0 ≠ k := by
        intro he
        subst he
        exact hnd.1 (List.mem_map.mpr ⟨(k0, v), h, rfl⟩)
      simp [mapLookup, hk, ih hnd.2 h]

/-! ## Directory-entry lemmas -/

theorem fsLookup_fsWrite_self (fs : List DirEntry) (n c : Str) :
    fsLookup (fsWrite fs n c) n = some (.readable c false) := by
  induction fs with
  | nil => simp [fsWrite, fsLookup]
  | cons e t ih =>
    by_cases h : e.name = n
    · simp [fsWrite, h, fsLookup]
    · simp [fsWrite, h, fsLookup, ih]

theorem fsLookup_fsWrite_ne (fs : List DirEntry) (n c m : Str) (h : n ≠ m) :
    fsLookup (fsWrite fs n c) m = fsLookup fs m := by
  induction fs with
  | nil => simp [fsWrite, fsLookup, h]
  | cons e t ih =>
    by_cases he : e.name = n
    · rw [fsWrite, if_pos he]
      rw [fsLookup, fsLookup]
      simp only [he]
      by_cases hm : n = m
      · exact absurd hm h
      · simp [hm]
    · rw [fsWrite, if_neg he]
      rw [fsLookup, fsLookup, ih]

theorem fsLookup_fsRemove (fs : List DirEntry) (n m : Str) :
    fsLookup (fsRemove fs n) m = if m = n then none else fsLookup fs m := by
  induction fs with
  | nil => simp [fsRemove, fsLookup]
  | cons e t ih =>
    by_cases he : e.name = n
    · rw [show fsRemove (e :: t) n = fsRemove t n from by
        simp [fsRemove, List.filter, he]]
      rw [ih, fsLookup]
      by_cases hm : m = n
      · simp [hm]
      · have : e.name ≠ m := fun hc => hm (hc ▸ he ▸ rfl)
        simp [hm, this]
    · rw [show fsRemove (e :: t) n = e :: fsRemove t n from by
        simp [fsRemove, List.filter, he]]
      rw [fsLookup, fsLookup, ih]
      by_cases hm : e.name = m
      · have : ¬ m = n := fun hc => he (hm.trans hc)
        simp [hm, this]
      · simp [hm]

theorem fsLookup_foldl_fsRemove (names : List Str) :
    ∀ (fs : List DirEntry) (m : Str),
      fsLookup (names.foldl fsRemove fs) m =
        if m ∈ names then none else fsLookup fs m := by
  induction names with
  | nil => intro fs m; simp
  | cons n names ih =>
    intro fs m
    rw [List.foldl_cons, ih, fsLookup_fsRemove]
    by_cases h1 : m ∈ names
    · simp [h1]
    · by_cases h2 : m = n
      · simp [h1, h2]
      · simp [h1, h2]

theorem fsLookup_append (A B : List DirEntry) (n : Str) :
    fsLookup (A ++ B) n =
      match fsLookup A n with
      | some a => some a
      | none => fsLookup B n := by
  induction A with
  | nil => simp [fsLookup]
  | cons e t ih =>
    by_cases h : e.name = n
    · simp [fsLookup, h]
    · simp [fsLookup, h, ih]

theorem fsRemove_of_not_mem {fs : List DirEntry} {n : Str}
    (h : ∀ e ∈ fs, e.name ≠ n) : fsRemove fs n = fs := by
  unfold fsRemove
  rw [List.filter_eq_self]
  intro e he
  simp [h e he]

theorem mem_of_mem_fsRemove {fs : List DirEntry} {n : Str} {e : DirEntry}
    (h : e ∈ fsRemove fs n) : e ∈ fs :=
  List.mem_of_mem_filter h

theorem shardView_append (A B : List DirEntry) :
    shardView (A ++ B) = shardView A ++ shardView B := by
  unfold shardView
  exact List.filter_append _ _

theorem shardView_fsWrite_not_shard {n : Str} (fs : List DirEntry) (c : Str)
    (h : isShardFileName n = false) :
    shardView (fsWrite fs n c) = shardView fs := by
  induction fs with
  | nil => simp [fsWrite, shardView, List.filter, h]
  | cons e t ih =>
    by_cases he : e.name = n
    · rw [fsWrite, if_pos he]
      unfold shardView
      rw [List.filter_cons, List.filter_cons]
      simp only [he, h]
      rfl
    · rw [fsWrite, if_neg he]
      unfold shardView
      rw [List.filter_cons, List.filter_cons]
      rcases hm : isShardFileName e.name with _ | _
      · simpa [hm] using ih
      · simpa [hm] using ih

theorem shardView_fsRemove_not_shard {n : Str} (fs : List DirEntry)
    (h : isShardFileName n = false) :
    shardView (fsRemove fs n) = shardView fs := by
  induction fs with
  | nil => rfl
  | cons e t ih =>
    by_cases he : e.name = n
    · rw [show fsRemove (e :: t) n = fsRemove t n from by
        simp [fsRemove, List.filter, he]]
      unfold shardView
      rw [List.filter_cons]
      have : isShardFileName e.name = false := he ▸ h
      simp only [this]
      exact ih
    · rw [show fsRemove (e :: t) n = e :: fsRemove t n from by
        simp [fsRemove, List.filter, he]]
      unfold shardView
      rw [List.filter_cons, List.filter_cons]
      rcases hm : isShardFileName e.name with _ | _
      · simpa [hm] using ih
      · simpa [hm] using ih

theorem shardView_foldl_fsRemove_not_shard (names : List Str) :
    ∀ fs : List DirEntry, (∀ n ∈ names, isShardFileName n = false) →
      shardView (names.foldl fsRemove fs) = shardView fs := by
  induction names with
  | nil => intro fs _; rfl
  | cons n names ih =>
    intro fs h
    rw [List.foldl_cons, ih _ (fun m hm => h m (List.mem_cons.mpr (Or.inr hm))),
      shardView_fsRemove_not_shard _ (h n (List.mem_cons_self _ _))]

theorem loadFiles_eq_shardView {T : Type} (dec : Str → Option (Row T))
    (entries : List DirEntry) :
    ∀ acc, loadFiles dec entries acc = loadFiles dec (shardView entries) acc := by
  induction entries with
  | nil => intro acc; rfl
  | cons e rest ih =>
    intro acc
    rcases hm : isShardFileName e.name with _ | _
    · rw [show shardView (e :: rest) = shardView rest from by
        unfold shardView; rw [List.filter_cons]; simp [hm]]
      rw [loadFiles, if_neg (by simp [hm]), ih]
    · rw [show shardView (e :: rest) = e :: shardView rest from by
        unfold shardView; rw [List.filter_cons]; simp [hm]]
      rw [loadFiles, if_pos hm, loadFiles, if_pos hm]
      rcases ha : e.access with _ | ⟨c, re⟩ <;> simp only [ha]
      · exact ih acc
      · rcases hp : parseLines dec e.name (splitLines c) acc with err | acc'
        · rfl
        · cases re with
          | true => rfl
          | false =>
            simp only [Bool.false_eq_true, if_neg, not_false_iff]
            exact ih acc'

theorem loadFiles_congr_shardView {T : Type} (dec : Str → Option (Row T))
    {fs1 fs2 : List DirEntry} (h : shardView fs1 = shardView fs2) (acc : List (Str × Row T)) :
    loadFiles dec fs1 acc = loadFiles dec fs2 acc := by
  rw [loadFiles_eq_shardView dec fs1 acc, h, ← loadFiles_eq_shardView dec fs2 acc]

/-! ## Shard-name and grouping lemmas -/

theorem tmpName_inj {p q : Str} (h : tmpName p = tmpName q) : p = q := by
  unfold tmpName at h
  exact List.append_cancel_left (List.append_cancel_right h)

theorem finalName_inj {p q : Str} (h : finalName p = finalName q) : p = q := by
  unfold finalName at h
  exact List.append_cancel_left (List.append_cancel_right h)

theorem finalName_ne_tmpName (p q : Str) : finalName p ≠ tmpName q := by
  intro h
  have h1 := isShardFileName_finalName p
  rw [h, isShardFileName_tmpName] at h1
  cases h1

theorem keys_groupInsert {T : Type} (sc : Nat) :
    ∀ (m : List (Str × List (Row T))) (r : Row T),
      (groupInsert sc m r).map Prod.fst =
        if shardKey sc r.id ∈ m.map Prod.fst then m.map Prod.fst
        else m.map Prod.fst ++ [shardKey sc r.id] := by
  intro m r
  induction m with
  | nil => simp [groupInsert]
  | cons kg t ih =>
    obtain ⟨k, g⟩ := kg
    by_cases hk : k = shardKey sc r.id
    · rw [groupInsert, if_pos hk]
      simp [hk]
    · rw [groupInsert, if_neg hk]
      simp only [List.map_cons]
      rw [ih]
      by_cases hmem : shardKey sc r.id ∈ t.map Prod.fst
      · rw [if_pos hmem,
          if_pos (List.mem_cons.mpr (Or.inr hmem))]
      · rw [if_neg hmem,
          if_neg (fun hc => by
            rcases List.mem_cons.mp hc with hc | hc
            · exact hk hc.symm
            · exact hmem hc)]
        rfl

theorem nodup_keys_groupInsert {T : Type} (sc : Nat)
    (m : List (Str × List (Row T))) (r : Row T)
    (h : (m.map Prod.fst).Nodup) : ((groupInsert sc m r).map Prod.fst).Nodup := by
  rw [keys_groupInsert]
  by_cases hmem : shardKey sc r.id ∈ m.map Prod.fst
  · rw [if_pos hmem]; exact h
  · rw [if_neg hmem]
    simp [List.nodup_append, h, hmem]

theorem nodup_keys_groupByShard {T : Type} (sc : Nat) (items : List (Str × Row T)) :
    ((groupByShard sc items).map Prod.fst).Nodup := by
  unfold groupByShard
  have main : ∀ (its : List (Str × Row T)) (m : List (Str × List (Row T))),
      (m.map Prod.fst).Nodup →
      ((its.foldl (fun m kv => groupInsert sc m kv.2) m).map Prod.fst).Nodup := by
    intro its
    induction its with
    | nil => intro m h; exact h
    | cons kv rest ih =>
      intro m h
      exact ih _ (nodup_keys_groupInsert sc m kv.2 h)
  exact main items [] (by simp)

theorem mapLookup_groupInsert {T : Type} (sc : Nat) :
    ∀ (m : List (Str × List (Row T))) (r : Row T) (p : Str),
      mapLookup (groupInsert sc m r) p =
        if p = shardKey sc r.id then some ((mapLookup m p).getD [] ++ [r])
        else mapLookup m p := by
  intro m r
  induction m with
  | nil =>
    intro p
    by_cases hp : p = shardKey sc r.id
    · simp [groupInsert, mapLookup, hp]
    · have hp' : ¬ shardKey sc r.id = p := fun h => hp h.symm
      simp [groupInsert, mapLookup, hp, hp']
  | cons kg t ih =>
    obtain ⟨k, g⟩ := kg
    intro p
    by_cases hk : k = shardKey sc r.id
    · rw [groupInsert, if_pos hk]
      by_cases hkp : k = p
      · rw [show mapLookup ((k, g ++ [r]) :: t) p = some (g ++ [r]) from by
          simp [mapLookup, hkp]]
        rw [if_pos (hkp.symm.trans hk)]
        rw [show mapLookup ((k, g) :: t) p = some g from by simp [mapLookup, hkp]]
        rfl
      · rw [show mapLookup ((k, g ++ [r]) :: t) p = mapLookup t p from by
          simp [mapLookup, hkp]]
        rw [if_neg (fun hc => hkp (hk.trans hc.symm))]
        rw [show mapLookup ((k, g) :: t) p = mapLookup t p from by
          simp [mapLookup, hkp]]
    · rw [groupInsert, if_neg hk]
      by_cases hkp : k = p
      · rw [show mapLookup ((k, g) :: groupInsert sc t r) p = some g from by
          simp [mapLookup, hkp]]
        rw [if_neg (fun hc => hk (hkp.trans hc))]
        rw [show mapLookup ((k, g) :: t) p = some g from by simp [mapLookup, hkp]]
      · rw [show mapLookup ((k, g) :: groupInsert sc t r) p
            = mapLookup (groupInsert sc t r) p from by simp [mapLookup, hkp]]
        rw [ih p]
        rw [show mapLookup ((k, g) :: t) p = mapLookup t p from by simp [mapLookup, hkp]]

theorem mapLookup_foldl_groupInsert {T : Type} (sc : Nat) :
    ∀ (rows : List (Row T)) (m : List (Str × List (Row T))) (p : Str),
      mapLookup (rows.foldl (groupInsert sc) m) p =
        (match mapLookup m p with
         | some g => some (g ++ rows.filter (fun r => decide (shardKey sc r.id = p)))
         | none =>
            if (rows.filter (fun r => decide (shardKey sc r.id = p))).isEmpty then none
            else some (rows.filter (fun r => decide (shardKey sc r.id = p)))) := by
  intro rows
  induction rows with
  | nil =>
    intro m p
    rw [List.foldl_nil]
    rcases hm : mapLookup m p with _ | g
    · simp [hm]
    · simp [hm]
  | cons r rest ih =>
    intro m p
    rw [List.foldl_cons, ih, mapLookup_groupInsert]
    by_cases hp : p = shardKey sc r.id
    · rw [if_pos hp]
      rw [show (r :: rest).filter (fun r => decide (shardKey sc r.id = p))
            = r :: rest.filter (fun r => decide (shardKey sc r.id = p)) from by
        rw [List.filter_cons, if_pos (by simp [hp])]]
      rcases hm : mapLookup m p with _ | g
      · simp
      · simp
    · rw [if_neg hp]
      have hp' : ¬ shardKey sc r.id = p := fun h => hp h.symm
      rw [show (r :: rest).filter (fun r => decide (shardKey sc r.id = p))
            = rest.filter (fun r => decide (shardKey sc r.id = p)) from by
        rw [List.filter_cons, if_neg (by simpa using hp')]]

theorem groupByShard_eq_foldl {T : Type} (sc : Nat) (items : List (Str × Row T)) :
    groupByShard sc items = (items.map Prod.snd).foldl (groupInsert sc) [] := by
  unfold groupByShard
  rw [List.foldl_map]

theorem mapLookup_groupByShard {T : Type} (sc : Nat) (items : List (Str × Row T))
    (p : Str) :
    mapLookup (groupByShard sc items) p =
      (if ((items.map Prod.snd).filter (fun r => decide (shardKey sc r.id = p))).isEmpty
       then none
       else some ((items.map Prod.snd).filter (fun r => decide (shardKey sc r.id = p)))) := by
  rw [groupByShard_eq_foldl, mapLookup_foldl_groupInsert]
  rfl

theorem mem_groupByShard {T : Type} (sc : Nat) (items : List (Str × Row T))
    {p : Str} {g : List (Row T)} (h : (p, g) ∈ groupByShard sc items) :
    g = (items.map Prod.snd).filter (fun r => decide (shardKey sc r.id = p)) ∧
      g ≠ [] := by
  have hl : mapLookup (groupByShard sc items) p = some g :=
    mapLookup_of_mem_nodup _ _ _ (nodup_keys_groupByShard sc items) h
  rw [mapLookup_groupByShard] at hl
  by_cases he :
      ((items.map Prod.snd).filter (fun r => decide (shardKey sc r.id = p))).isEmpty = true
  · rw [if_pos he] at hl
    cases hl
  · rw [if_neg he] at hl
    cases hl
    refine ⟨rfl, fun hc => he ?_⟩
    rw [hc]
    rfl

theorem join_groupInsert_perm {T : Type} (sc : Nat) :
    ∀ (m : List (Str × List (Row T))) (r : Row T),
      List.Perm ((groupInsert sc m r).map Prod.snd).flatten (((m.map Prod.snd).flatten) ++ [r]) := by
  intro m r
  induction m with
  | nil => simp [groupInsert]
  | cons kg t ih =>
    obtain ⟨k, g⟩ := kg
    by_cases hk : k = shardKey sc r.id
    · rw [groupInsert, if_pos hk]
      simp only [List.map_cons, List.flatten_cons, List.append_assoc]
      exact (List.Perm.append_left g (List.perm_append_comm)).trans (List.Perm.refl _)
    · rw [groupInsert, if_neg hk]
      simp only [List.map_cons, List.flatten_cons, List.append_assoc]
      exact List.Perm.append_left g ih

theorem join_groupByShard_perm {T : Type} (sc : Nat) (items : List (Str × Row T)) :
    List.Perm ((groupByShard sc items).map Prod.snd).flatten (items.map Prod.snd) := by
  rw [groupByShard_eq_foldl]
  have main : ∀ (rows : List (Row T)) (m : List (Str × List (Row T))),
      List.Perm ((rows.foldl (groupInsert sc) m).map Prod.snd).flatten
        (((m.map Prod.snd).flatten) ++ rows) := by
    intro rows
    induction rows with
    | nil => intro m; simp
    | cons r rest ih =>
      intro m
      rw [List.foldl_cons]
      refine (ih _).trans ?_
      refine (List.Perm.append_right rest (join_groupInsert_perm sc m r)).trans ?_
      rw [List.append_assoc]
      exact List.Perm.append_left _ (by simp)
  simpa using main (items.map Prod.snd) []

/-! ## Sorting lemmas -/

theorem lexLe_total : ∀ a b : Str, lexLe a b = true ∨ lexLe b a = true := by
  intro a
  induction a with
  | nil => intro b; left; rfl
  | cons x xs ih =>
    intro b
    cases b with
    | nil => right; rfl
    | cons y ys =>
      by_cases hxy : x = y
      · subst hxy
        rcases ih ys with h | h
        · left; simpa [lexLe] using h
        · right; simpa [lexLe] using h
      · have hyx : ¬ y = x := fun hc => hxy hc.symm
        rcases lt_or_gt_of_ne hxy with h | h
        · left
          rw [lexLe, if_neg hxy]
          exact decide_eq_true h
        · right
          rw [lexLe, if_neg hyx]
          exact decide_eq_true h

theorem lexLe_antisymm : ∀ a b : Str, lexLe a b = true → lexLe b a = true → a = b := by
  intro a
  induction a with
  | nil =>
    intro b h1 h2
    cases b with
    | nil => rfl
    | cons y ys => simp [lexLe] at h2
  | cons x xs ih =>
    intro b h1 h2
    cases b with
    | nil => simp [lexLe] at h1
    | cons y ys =>
      by_cases hxy : x = y
      · subst hxy
        simp only [lexLe, if_pos rfl] at h1 h2
        rw [ih ys h1 h2]
      · rw [lexLe, if_neg hxy] at h1
        rw [lexLe, if_neg (fun hc => hxy hc.symm)] at h2
        have hx : x < y := of_decide_eq_true h1
        have hy : y < x := of_decide_eq_true h2
        exact absurd hy (not_lt_of_gt hx)

theorem lexLe_trans : ∀ a b c : Str,
    lexLe a b = true → lexLe b c = true → lexLe a c = true := by
  intro a
  induction a with
  | nil => intro b c _ _; rfl
  | cons x xs ih =>
    intro b c h1 h2
    cases b with
    | nil => simp [lexLe] at h1
    | cons y ys =>
      cases c with
      | nil => simp [lexLe] at h2
      | cons z zs =>
        by_cases hxy : x = y <;> by_cases hyz : y = z
        · subst hxy; subst hyz
          simp only [lexLe, if_pos rfl] at h1 h2 ⊢
          exact ih ys zs h1 h2
        · subst hxy
          rw [lexLe, if_neg hyz] at h2
          rw [lexLe, if_neg hyz]
          exact h2
        · subst hyz
          rw [lexLe, if_neg hxy] at h1
          rw [lexLe, if_neg hxy]
          exact h1
        · rw [lexLe, if_neg hxy] at h1
          rw [lexLe, if_neg hyz] at h2
          have hx : x < y := of_decide_eq_true h1
          have hy : y < z := of_decide_eq_true h2
          have hxz : x ≠ z := fun hc => by
            subst hc
            exact absurd (hx.trans hy) (lt_irrefl x)
          rw [lexLe, if_neg hxz]
          exact decide_eq_true (hx.trans hy)

theorem sortRows_perm {T : Type} (rows : List (Row T)) : List.Perm (sortRows rows) rows :=
  List.perm_insertionSort _ rows

theorem sortRows_sorted {T : Type} (rows : List (Row T)) :
    List.Sorted (fun a b : Row T => lexLe a.id b.id = true) (sortRows rows) := by
  haveI : IsTotal (Row T) (fun a b : Row T => lexLe a.id b.id = true) :=
    ⟨fun a b => lexLe_total a.id b.id⟩
  haveI : IsTrans (Row T) (fun a b : Row T => lexLe a.id b.id = true) :=
    ⟨fun a b c => lexLe_trans a.id b.id c.id⟩
  exact List.sorted_insertionSort _ rows

theorem eq_of_perm_strict {α : Type} (S : α → α → Prop)
    (hasym : ∀ a b, S a b → S b a → False) :
    ∀ l1 l2 : List α, List.Perm l1 l2 → l1.Pairwise S → l2.Pairwise S → l1 = l2 := by
  intro l1
  induction l1 with
  | nil =>
    intro l2 hp _ _
    exact hp.nil_eq
  | cons a t ih =>
    intro l2 hp h1 h2
    cases l2 with
    | nil => exact absurd hp.symm (by simp)
    | cons b t2 =>
      by_cases hab : a = b
      · subst hab
        rw [ih t2 hp.cons_inv (List.Pairwise.of_cons h1) (List.Pairwise.of_cons h2)]
      · have ha2 : a ∈ b :: t2 := hp.mem_iff.mp (List.mem_cons_self a t)
        have ha : a ∈ t2 := by
          rcases List.mem_cons.mp ha2 with hc | hc
          · exact absurd hc hab
          · exact hc
        have hb1 : b ∈ a :: t := hp.symm.mem_iff.mp (List.mem_cons_self b t2)
        have hb : b ∈ t := by
          rcases List.mem_cons.mp hb1 with hc | hc
          · exact absurd hc.symm hab
          · exact hc
        have hSab : S a b := (List.pairwise_cons.mp h1).1 b hb
        have hSba : S b a := (List.pairwise_cons.mp h2).1 a ha
        exact absurd hSab (fun hS => hasym a b hS hSba)

theorem sortRows_eq_of_perm {T : Type} {g1 g2 : List (Row T)} (hp : List.Perm g1 g2)
    (hnd : (g1.map Row.id).Nodup) : sortRows g1 = sortRows g2 := by
  have hperm : List.Perm (sortRows g1) (sortRows g2) :=
    ((sortRows_perm g1).trans hp).trans (sortRows_perm g2).symm
  have hnd1 : ((sortRows g1).map Row.id).Nodup :=
    (((sortRows_perm g1).map Row.id).nodup_iff).mpr hnd
  have hnd2 : ((sortRows g2).map Row.id).Nodup :=
    ((hperm.map Row.id).nodup_iff).mp hnd1
  have hpw1 : (sortRows g1).Pairwise
      (fun a b : Row T => lexLe a.id b.id = true ∧ a.id ≠ b.id) :=
    (sortRows_sorted g1).and (List.pairwise_map.mp hnd1)
  have hpw2 : (sortRows g2).Pairwise
      (fun a b : Row T => lexLe a.id b.id = true ∧ a.id ≠ b.id) :=
    (sortRows_sorted g2).and (List.pairwise_map.mp hnd2)
  exact eq_of_perm_strict _ (fun a b h1 h2 => h1.2 (lexLe_antisymm _ _ h1.1 h2.1))
    _ _ hperm hpw1 hpw2

/-! ## Save-protocol lemmas -/

theorem fsLookup_eq_none_of_not_named {fs : List DirEntry} {n : Str}
    (h : ∀ e ∈ fs, e.name ≠ n) : fsLookup fs n = none := by
  induction fs with
  | nil => rfl
  | cons e t ih =>
    rw [fsLookup, if_neg (h e (List.mem_cons_self e t))]
    exact ih (fun e' he' => h e' (List.mem_cons.mpr (Or.inr he')))

theorem jsonlTmp_suffix_tmpName (p : Str) :
    ".jsonl.tmp".toList.isSuffixOf (tmpName p) = true := by
  rw [List.isSuffixOf_iff_suffix]
  unfold tmpName
  exact List.suffix_append _ _

theorem savePhase1_noFail {T : Type} (enc : Row T → Str)
    (groups : List (Str × List (Row T))) :
    ∀ (fs : List DirEntry) (tmps : List (Str × Str)),
      savePhase1 enc (fun _ => false) groups fs tmps =
        (groups.foldl
          (fun a g => fsWrite a (tmpName g.1) (encodeRows enc (sortRows g.2))) fs,
         tmps ++ groups.map (fun g => (tmpName g.1, finalName g.1)),
         none) := by
  induction groups with
  | nil =>
    intro fs tmps
    simp [savePhase1]
  | cons g rest ih =>
    obtain ⟨pfx, rows⟩ := g
    intro fs tmps
    simp only [savePhase1, Bool.false_eq_true, if_neg, not_false_iff]
    rw [ih]
    simp [List.append_assoc]

theorem savePhase1_failure {T : Type} (enc : Row T → Str) (wfail : Str → Bool)
    (groups : List (Str × List (Row T))) :
    ∀ (fs : List DirEntry) (tmps : List (Str × Str)) (fs' : List DirEntry)
      (tmps' : List (Str × Str)) (e : SaveErr),
      (∀ pr ∈ tmps, ∃ p, pr.1 = tmpName p) →
      savePhase1 enc wfail groups fs tmps = (fs', tmps', some e) →
      (∃ pfx, e = .writeFailed (tmpName pfx) ∧ wfail (tmpName pfx) = true)
      ∧ (∀ pr ∈ tmps, fsLookup fs' pr.1 = none)
      ∧ (∀ n, fsLookup fs' n = fsLookup fs n ∨
          (fsLookup fs' n = none ∧ ∃ p, n = tmpName p))
      ∧ shardView fs' = shardView fs := by
  induction groups with
  | nil =>
    intro fs tmps fs' tmps' e htmps h
    simp [savePhase1] at h
  | cons g rest ih =>
    obtain ⟨pfx, rows⟩ := g
    intro fs tmps fs' tmps' e htmps h
    by_cases hw : wfail (tmpName pfx) = true
    · simp only [savePhase1, hw, if_pos] at h
      simp only [Prod.mk.injEq] at h
      obtain ⟨h1, h2, h3⟩ := h
      injection h3 with h3
      subst h1
      subst h3
      refine ⟨⟨pfx, rfl, hw⟩, ?_, ?_, ?_⟩
      · intro pr hpr
        rw [fsLookup_foldl_fsRemove,
          if_pos (List.mem_map.mpr ⟨pr, hpr, rfl⟩)]
      · intro n
        rw [fsLookup_foldl_fsRemove, fsLookup_fsRemove]
        by_cases hn1 : n ∈ tmps.map Prod.fst
        · right
          refine ⟨by rw [if_pos hn1], ?_⟩
          obtain ⟨pr, hpr, hpr1⟩ := List.mem_map.mp hn1
          obtain ⟨p, hp⟩ := htmps pr hpr
          exact ⟨p, hpr1 ▸ hp⟩
        · rw [if_neg hn1]
          by_cases hn2 : n = tmpName pfx
          · right
            exact ⟨by rw [if_pos hn2], pfx, hn2⟩
          · left
            rw [if_neg hn2]
      · rw [shardView_foldl_fsRemove_not_shard _ _ (fun m hm => by
          obtain ⟨pr, hpr, hpr1⟩ := List.mem_map.mp hm
          obtain ⟨p, hp⟩ := htmps pr hpr
          rw [← hpr1, hp]
          exact isShardFileName_tmpName p),
          shardView_fsRemove_not_shard _ (isShardFileName_tmpName pfx)]
    · simp only [savePhase1, hw, Bool.false_eq_true, if_neg, not_false_iff] at h
      have htmps2 : ∀ pr ∈ tmps ++ [(tmpName pfx, finalName pfx)],
          ∃ p, pr.1 = tmpName p := by
        intro pr hpr
        rcases List.mem_append.mp hpr with hc | hc
        · exact htmps pr hc
        · rw [List.mem_singleton.mp hc]
          exact ⟨pfx, rfl⟩
      obtain ⟨c1, c2, c3, c4⟩ := ih _ _ _ _ _ htmps2 h
      have hdel : fsLookup fs' (tmpName pfx) = none :=
        c2 (tmpName pfx, finalName pfx)
          (List.mem_append.mpr (Or.inr (List.mem_singleton.mpr rfl)))
      refine ⟨c1, ?_, ?_, ?_⟩
      · intro pr hpr
        exact c2 pr (List.mem_append.mpr (Or.inl hpr))
      · intro n
        by_cases hn : n = tmpName pfx
        · right
          exact ⟨hn ▸ hdel, pfx, hn⟩
        · rcases c3 n with hA | hB
          · left
            rw [hA, fsLookup_fsWrite_ne _ _ _ _ (fun hc => hn hc.symm)]
          · right
            exact hB
      · rw [c4, shardView_fsWrite_not_shard _ _ (isShardFileName_tmpName pfx)]

theorem fsLookup_writeFold {T : Type} (enc : Row T → Str) :
    ∀ (groups : List (Str × List (Row T))),
      ((groups.map Prod.fst).Nodup) →
      ∀ (fs : List DirEntry) (n : Str),
        fsLookup (groups.foldl
          (fun a g => fsWrite a (tmpName g.1) (encodeRows enc (sortRows g.2))) fs) n =
          match groups.find? (fun g => decide (tmpName g.1 = n)) with
          | some g => some (.readable (encodeRows enc (sortRows g.2)) false)
          | none => fsLookup fs n := by
  intro groups
  induction groups with
  | nil =>
    intro _ fs n
    rfl
  | cons g gs ih =>
    intro hnd fs n
    simp only [List.map_cons, List.nodup_cons] at hnd
    rw [List.foldl_cons, ih hnd.2]
    by_cases hn : tmpName g.1 = n
    · rw [List.find?_cons_of_pos _ (by simpa using hn)]
      rw [show gs.find? (fun g => decide (tmpName g.1 = n)) = none from
        List.find?_eq_none.mpr (fun g' hg' hp => by
          have : tmpName g'.1 = n := of_decide_eq_true hp
          exact hnd.1 (by
            rw [show g.1 = g'.1 from tmpName_inj (hn.trans this.symm)]
            exact List.mem_map.mpr ⟨g', hg', rfl⟩))]
      rw [← hn, fsLookup_fsWrite_self]
    · rw [List.find?_cons_of_neg _ (by simpa using hn)]
      rcases hf : gs.find? (fun g => decide (tmpName g.1 = n)) with _ | g'
      · rw [hf, fsLookup_fsWrite_ne _ _ _ _ hn]
      · rw [hf]

theorem fsLookup_filter_not {P : Str → Bool} :
    ∀ (fs : List DirEntry) (n : Str),
      fsLookup (fs.filter (fun e => !(P e.name))) n =
        if P n then none else fsLookup fs n := by
  intro fs
  induction fs with
  | nil =>
    intro n
    rcases hp : P n with _ | _ <;> simp [fsLookup, hp]
  | cons e t ih =>
    intro n
    rw [List.filter_cons]
    rcases hpe : P e.name with _ | _
    · simp only [hpe, Bool.not_false, if_pos]
      rw [fsLookup]
      by_cases hen : e.name = n
      · rw [if_pos hen, if_neg (by rw [← hen, hpe]; simp), fsLookup, if_pos hen]
      · rw [if_neg hen, ih]
        by_cases hpn : P n = true
        · rw [if_pos hpn, if_pos hpn]
        · rw [if_neg hpn, if_neg hpn, fsLookup, if_neg hen]
    · simp only [hpe, Bool.not_true, Bool.false_eq_true, if_neg, not_false_iff]
      rw [ih]
      by_cases hpn : P n = true
      · rw [if_pos hpn, if_pos hpn]
      · rw [if_neg hpn, if_neg hpn, fsLookup]
        by_cases hen : e.name = n
        · rw [← hen] at hpn
          rw [hpe] at hpn
          exact absurd rfl hpn
        · rw [if_neg hen]

theorem shardView_phase2 (fs : List DirEntry) :
    shardView (fs.filter (fun e => !(isRemovableFinal e.name))) = [] := by
  induction fs with
  | nil => rfl
  | cons e t ih =>
    rw [List.filter_cons]
    rcases hr : isRemovableFinal e.name with _ | _
    · simp only [hr, Bool.not_false, if_pos]
      unfold shardView
      rw [List.filter_cons]
      rw [show isShardFileName e.name = false from by
        rw [← isRemovableFinal_eq_isShardFileName, hr]]
      exact ih
    · simp only [hr, Bool.not_true, Bool.false_eq_true, if_neg, not_false_iff]
      exact ih

theorem mem_phase2_not_shard {fs : List DirEntry} {e : DirEntry}
    (h : e ∈ fs.filter (fun e => !(isRemovableFinal e.name))) :
    isShardFileName e.name = false := by
  have := List.of_mem_filter h
  rw [← isRemovableFinal_eq_isShardFileName]
  simpa using this

theorem fsRename_fold (gs : List (Str × Str)) :
    ∀ fs : List DirEntry,
      (gs.map Prod.fst).Nodup →
      (∀ g ∈ gs, fsLookup fs (tmpName g.1) = some (.readable g.2 false)) →
      (∀ g ∈ gs, ∀ e ∈ fs, e.name ≠ finalName g.1) →
      shardView (gs.foldl (fun a g => fsRename a (tmpName g.1) (finalName g.1)) fs)
        = shardView fs ++ gs.map (fun g => ⟨finalName g.1, .readable g.2 false⟩)
      ∧ ∀ n, fsLookup
          (gs.foldl (fun a g => fsRename a (tmpName g.1) (finalName g.1)) fs) n =
          match gs.find? (fun g => decide (finalName g.1 = n)) with
          | some g => some (.readable g.2 false)
          | none => if gs.any (fun g => decide (tmpName g.1 = n)) then none
                    else fsLookup fs n := by
  induction gs with
  | nil =>
    intro fs _ _ _
    refine ⟨by simp, fun n => by simp⟩
  | cons g gs ih =>
    intro fs hnd htmp hfin
    simp only [List.map_cons, List.nodup_cons] at hnd
    have hl : fsLookup fs (tmpName g.1) = some (.readable g.2 false) :=
      htmp g (List.mem_cons_self g gs)
    have hfg : ∀ e ∈ fs, e.name ≠ finalName g.1 :=
      hfin g (List.mem_cons_self g gs)
    have hnofin : ∀ e ∈ fsRemove fs (tmpName g.1), e.name ≠ finalName g.1 :=
      fun e he => hfg e (mem_of_mem_fsRemove he)
    have hfs1 : fsRename fs (tmpName g.1) (finalName g.1)
        = fsRemove fs (tmpName g.1) ++ [⟨finalName g.1, .readable g.2 false⟩] := by
      rw [fsRename, hl, fsRemove_of_not_mem hnofin]
    have hkeys : ∀ g' ∈ gs, g'.1 ≠ g.1 := by
      intro g' hg' hc
      exact hnd.1 (by rw [← hc]; exact List.mem_map.mpr ⟨g', hg', rfl⟩)
    have htmp' : ∀ g' ∈ gs,
        fsLookup (fsRename fs (tmpName g.1) (finalName g.1)) (tmpName g'.1)
          = some (.readable g'.2 false) := by
      intro g' hg'
      rw [hfs1, fsLookup_append, fsLookup_fsRemove,
        if_neg (fun hc => hkeys g' hg' (tmpName_inj hc)),
        htmp g' (List.mem_cons.mpr (Or.inr hg'))]
    have hfin' : ∀ g' ∈ gs, ∀ e ∈ fsRename fs (tmpName g.1) (finalName g.1),
        e.name ≠ finalName g'.1 := by
      intro g' hg' e he
      rw [hfs1] at he
      rcases List.mem_append.mp he with hc | hc
      · exact hfin g' (List.mem_cons.mpr (Or.inr hg')) e (mem_of_mem_fsRemove hc)
      · rw [List.mem_singleton.mp hc]
        intro hcc
        exact hkeys g' hg' (finalName_inj hcc).symm
    obtain ⟨ihv, ihl⟩ := ih (fsRename fs (tmpName g.1) (finalName g.1))
      hnd.2 htmp' hfin'
    have hview1 : shardView (fsRename fs (tmpName g.1) (finalName g.1))
        = shardView fs ++ [⟨finalName g.1, .readable g.2 false⟩] := by
      rw [hfs1, shardView_append,
        shardView_fsRemove_not_shard _ (isShardFileName_tmpName g.1)]
      congr 1
      unfold shardView
      rw [List.filter_cons, if_pos (by simp [isShardFileName_finalName])]
      rfl
    constructor
    · rw [List.foldl_cons, ihv, hview1, List.append_assoc]
      rfl
    · intro n
      rw [List.foldl_cons, ihl]
      by_cases hfn : finalName g.1 = n
      · rw [List.find?_cons_of_pos _ (by simpa using hfn)]
        rw [show gs.find? (fun g => decide (finalName g.1 = n)) = none from
          List.find?_eq_none.mpr (fun g' hg' hp => by
            have : finalName g'.1 = n := of_decide_eq_true hp
            exact hkeys g' hg' (finalName_inj (this.trans hfn.symm)))]
        rw [show gs.any (fun g => decide (tmpName g.1 = n)) = false from
          List.any_eq_false.mpr (fun g' hg' => by
            simp only [decide_eq_true_eq]
            intro hc
            exact finalName_ne_tmpName g.1 g'.1 (hfn.trans hc.symm))]
        simp only [Bool.false_eq_true, if_neg, not_false_iff]
        rw [hfs1, ← hfn, fsLookup_append,
          fsLookup_eq_none_of_not_named hnofin,
          show fsLookup [⟨finalName g.1, FileAccess.readable g.2 false⟩] (finalName g.1)
            = some (.readable g.2 false) from by rw [fsLookup, if_pos rfl]]
      · rw [List.find?_cons_of_neg _ (by simpa using hfn)]
        rcases hf : gs.find? (fun g => decide (finalName g.1 = n)) with _ | g'
        · rw [hf]
          by_cases htn : tmpName g.1 = n
          · rw [show (g :: gs).any (fun g => decide (tmpName g.1 = n)) = true from by
              rw [List.any_cons]
              simp [htn]]
            by_cases hga : gs.any (fun g => decide (tmpName g.1 = n)) = true
            · rw [if_pos hga]
              rfl
            · rw [if_neg hga]
              rw [hfs1, fsLookup_append, fsLookup_fsRemove, if_pos htn.symm]
              rw [show fsLookup [⟨finalName g.1, FileAccess.readable g.2 false⟩] n
                  = none from by rw [fsLookup, if_neg hfn]; rfl]
              rfl
          · rw [show (g :: gs).any (fun g => decide (tmpName g.1 = n))
                = gs.any (fun g => decide (tmpName g.1 = n)) from by
              rw [List.any_cons]
              simp [htn]]
            by_cases hga : gs.any (fun g => decide (tmpName g.1 = n)) = true
            · rw [if_pos hga, if_pos hga]
            · rw [if_neg hga, if_neg hga]
              rw [hfs1, fsLookup_append, fsLookup_fsRemove,
                if_neg (fun hc => htn hc.symm)]
              rcases hlk : fsLookup fs n with _ | a
              · rw [show fsLookup [⟨finalName g.1, FileAccess.readable g.2 false⟩] n
                    = none from by rw [fsLookup, if_neg hfn]; rfl]
              · rfl
        · rw [hf]

theorem find?_name_eq {β : Type} (f : Str → Str)
    (hf : ∀ a b : Str, f a = f b → a = b) :
    ∀ (l : List (Str × β)), ((l.map Prod.fst).Nodup) → ∀ x ∈ l,
      l.find? (fun g => decide (f g.1 = f x.1)) = some x := by
  intro l
  induction l with
  | nil =>
    intro _ x hx
    simp at hx
  | cons g gs ih =>
    intro hnd x hx
    simp only [List.map_cons, List.nodup_cons] at hnd
    by_cases hp : f g.1 = f x.1
    · rw [List.find?_cons_of_pos _ (by simpa using hp)]
      rcases List.mem_cons.mp hx with hc | hc
      · rw [hc]
      · exact absurd (by
          rw [hf g.1 x.1 hp]
          exact List.mem_map.mpr ⟨x, hc, rfl⟩) hnd.1
    · rw [List.find?_cons_of_neg _ (by simpa using hp)]
      rcases List.mem_cons.mp hx with hc | hc
      · exact absurd (hc ▸ rfl) hp
      · exact ih hnd.2 x hc

theorem snd_eq_of_mem_nodup {β : Type} {l : List (Str × β)} {k : Str} {a b : β}
    (hnd : (l.map Prod.fst).Nodup) (h1 : (k, a) ∈ l) (h2 : (k, b) ∈ l) : a = b := by
  have ha := mapLookup_of_mem_nodup l k a hnd h1
  have hb := mapLookup_of_mem_nodup l k b hnd h2
  exact Option.some.inj (ha.symm.trans hb)

theorem find?_finalName_map {T : Type} (enc : Row T → Str) (n : Str) :
    ∀ groups : List (Str × List (Row T)),
      (groups.map (fun g => (g.1, encodeRows enc (sortRows g.2)))).find?
          (fun g => decide (finalName g.1 = n))
        = (groups.find? (fun g => decide (finalName g.1 = n))).map
            (fun g => (g.1, encodeRows enc (sortRows g.2))) := by
  intro groups
  induction groups with
  | nil => rfl
  | cons g t ih =>
    by_cases hp : finalName g.1 = n
    · rw [List.map_cons, List.find?_cons_of_pos _ (by simpa using hp),
        List.find?_cons_of_pos _ (by simpa using hp)]
      rfl
    · rw [List.map_cons, List.find?_cons_of_neg _ (by simpa using hp),
        List.find?_cons_of_neg _ (by simpa using hp), ih]

theorem any_tmpName_map {T : Type} (enc : Row T → Str) (n : Str) :
    ∀ groups : List (Str × List (Row T)),
      (groups.map (fun g => (g.1, encodeRows enc (sortRows g.2)))).any
          (fun g => decide (tmpName g.1 = n))
        = groups.any (fun g => decide (tmpName g.1 = n)) := by
  intro groups
  induction groups with
  | nil => rfl
  | cons g t ih => simp only [List.map_cons, List.any_cons, ih]

theorem save_noFail_char {T : Type} (enc : Row T → Str) (tbl : Table T)
    (dir : Option (List DirEntry)) :
    (Table.save enc tbl dir (fun _ => false)).2 = none
    ∧ shardView (Table.save enc tbl dir (fun _ => false)).1
        = (groupByShard tbl.shard_characters tbl.items).map
            (fun g => ⟨finalName g.1, .readable (encodeRows enc (sortRows g.2)) false⟩)
    ∧ ∀ n, fsLookup (Table.save enc tbl dir (fun _ => false)).1 n =
        match (groupByShard tbl.shard_characters tbl.items).find?
            (fun g => decide (finalName g.1 = n)) with
        | some g => some (.readable (encodeRows enc (sortRows g.2)) false)
        | none =>
            if isShardFileName n then none
            else if (groupByShard tbl.shard_characters tbl.items).any
                (fun g => decide (tmpName g.1 = n)) then none
            else fsLookup (dir.getD []) n := by
  have hk : ((groupByShard tbl.shard_characters tbl.items).map Prod.fst).Nodup :=
    nodup_keys_groupByShard _ _
  have hsp := savePhase1_noFail enc (groupByShard tbl.shard_characters tbl.items)
    (dir.getD []) []
  have hsave : Table.save enc tbl dir (fun _ => false)
      = (((groupByShard tbl.shard_characters tbl.items).map
            (fun g => (tmpName g.1, finalName g.1))).foldl
          (fun fs pr => fsRename fs pr.1 pr.2)
          (((groupByShard tbl.shard_characters tbl.items).foldl
              (fun a g => fsWrite a (tmpName g.1) (encodeRows enc (sortRows g.2)))
              (dir.getD [])).filter (fun e => !(isRemovableFinal e.name))),
         none) := by
    unfold Table.save
    dsimp only
    rw [hsp]
    simp
  have hfoldeq : (((groupByShard tbl.shard_characters tbl.items).map
        (fun g => (tmpName g.1, finalName g.1))).foldl
      (fun fs pr => fsRename fs pr.1 pr.2)
      (((groupByShard tbl.shard_characters tbl.items).foldl
          (fun a g => fsWrite a (tmpName g.1) (encodeRows enc (sortRows g.2)))
          (dir.getD [])).filter (fun e => !(isRemovableFinal e.name))))
    = (((groupByShard tbl.shard_characters tbl.items).map
        (fun g => (g.1, encodeRows enc (sortRows g.2)))).foldl
      (fun a g => fsRename a (tmpName g.1) (finalName g.1))
      (((groupByShard tbl.shard_characters tbl.items).foldl
          (fun a g => fsWrite a (tmpName g.1) (encodeRows enc (sortRows g.2)))
          (dir.getD [])).filter (fun e => !(isRemovableFinal e.name)))) := by
    rw [List.foldl_map, List.foldl_map]
  have hgskeys : (((groupByShard tbl.shard_characters tbl.items).map
      (fun g => (g.1, encodeRows enc (sortRows g.2)))).map Prod.fst).Nodup := by
    rw [List.map_map]
    exact hk
  have htmp2 : ∀ g' ∈ (groupByShard tbl.shard_characters tbl.items).map
        (fun g => (g.1, encodeRows enc (sortRows g.2))),
      fsLookup (((groupByShard tbl.shard_characters tbl.items).foldl
          (fun a g => fsWrite a (tmpName g.1) (encodeRows enc (sortRows g.2)))
          (dir.getD [])).filter (fun e => !(isRemovableFinal e.name)))
        (tmpName g'.1) = some (.readable g'.2 false) := by
    intro g' hg'
    obtain ⟨g0, hg0, hg0e⟩ := List.mem_map.mp hg'
    rw [fsLookup_filter_not]
    rw [if_neg (by
      rw [isRemovableFinal_eq_isShardFileName, isShardFileName_tmpName]
      simp)]
    rw [fsLookup_writeFold enc _ hk]
    rw [show (groupByShard tbl.shard_characters tbl.items).find?
          (fun g => decide (tmpName g.1 = tmpName g'.1))
        = some g0 from by
      rw [show tmpName g'.1 = tmpName g0.1 from by rw [← hg0e]]
      exact find?_name_eq tmpName (fun a b => tmpName_inj) _ hk g0 hg0]
    rw [← hg0e]
  have hfin2 : ∀ g' ∈ (groupByShard tbl.shard_characters tbl.items).map
        (fun g => (g.1, encodeRows enc (sortRows g.2))),
      ∀ e ∈ (((groupByShard tbl.shard_characters tbl.items).foldl
          (fun a g => fsWrite a (tmpName g.1) (encodeRows enc (sortRows g.2)))
          (dir.getD [])).filter (fun e => !(isRemovableFinal e.name))),
        e.name ≠ finalName g'.1 := by
    intro g' hg' e he hc
    have hs := mem_phase2_not_shard he
    rw [hc, isShardFileName_finalName] at hs
    cases hs
  obtain ⟨hview, hlook⟩ := fsRename_fold
    ((groupByShard tbl.shard_characters tbl.items).map
      (fun g => (g.1, encodeRows enc (sortRows g.2))))
    (((groupByShard tbl.shard_characters tbl.items).foldl
        (fun a g => fsWrite a (tmpName g.1) (encodeRows enc (sortRows g.2)))
        (dir.getD [])).filter (fun e => !(isRemovableFinal e.name)))
    hgskeys htmp2 hfin2
  refine ⟨by rw [hsave], ?_, ?_⟩
  · rw [hsave]
    dsimp only
    rw [hfoldeq, hview, shardView_phase2, List.nil_append, List.map_map]
    rfl
  · intro n
    rw [hsave]
    dsimp only
    rw [hfoldeq, hlook n]
    rw [find?_finalName_map, any_tmpName_map]
    rcases hf : (groupByShard tbl.shard_characters tbl.items).find?
        (fun g => decide (finalName g.1 = n)) with _ | g0
    · rw [hf]
      rw [show Option.map (fun g : Str × List (Row T) =>
            (g.1, encodeRows enc (sortRows g.2))) none = (none : Option (Str × Str)) from rfl]
      have hred : ∀ X : Option FileAccess,
          (match (none : Option (Str × Str)) with
           | some g => some (FileAccess.readable g.2 false)
           | none => X) = X := fun _ => rfl
      rw [hred]
      rcases hsh : isShardFileName n with _ | _
      · rcases hany : (groupByShard tbl.shard_characters tbl.items).any
            (fun g => decide (tmpName g.1 = n)) with _ | _
        · rw [if_neg Bool.false_ne_true, if_neg Bool.false_ne_true,
            if_neg Bool.false_ne_true]
          rw [fsLookup_filter_not,
            if_neg (by rw [isRemovableFinal_eq_isShardFileName, hsh]; simp),
            fsLookup_writeFold enc _ hk]
          rw [show (groupByShard tbl.shard_characters tbl.items).find?
                (fun g => decide (tmpName g.1 = n)) = none from by
            rw [List.find?_eq_none]
            intro g' hg' hp
            have hat : (groupByShard tbl.shard_characters tbl.items).any
                (fun g => decide (tmpName g.1 = n)) = true :=
              List.any_eq_true.mpr ⟨g', hg', hp⟩
            rw [hany] at hat
            cases hat]
        · rw [if_pos rfl, if_neg Bool.false_ne_true, if_pos rfl]
      · rcases hany : (groupByShard tbl.shard_characters tbl.items).any
            (fun g => decide (tmpName g.1 = n)) with _ | _
        · rw [if_neg Bool.false_ne_true, if_pos rfl]
          rw [fsLookup_filter_not,
            if_pos (by rw [isRemovableFinal_eq_isShardFileName, hsh])]
        · rw [if_pos rfl, if_pos rfl]
    · rw [hf]
      rfl

/-! ## Preservation of the map invariant -/

theorem wf_mapInsert_row {T : Type} {m : List (Str × Row T)} (r : Row T)
    (hnd : (m.map Prod.fst).Nodup) (hid : ∀ kv ∈ m, (kv.2).id = kv.1) :
    ((mapInsert m r.id r).map Prod.fst).Nodup ∧
      ∀ kv ∈ mapInsert m r.id r, (kv.2).id = kv.1 := by
  refine ⟨nodup_keys_mapInsert _ _ _ hnd, fun kv hkv => ?_⟩
  rcases mem_mapInsert _ _ _ _ hkv with h | h
  · subst h; rfl
  · exact hid kv h

theorem wf_upsert {T : Type} [DecidableEq T] (sha256hex : Str → Str) (key : T → Str)
    {tbl : Table T} (item : T) (now : Nat) (h : tbl.WF) :
    (tbl.upsert sha256hex key item now).WF := by
  obtain ⟨hnd, hid⟩ := h
  have hins : ∀ r : Row T,
      ((mapInsert tbl.items r.id r).map Prod.fst).Nodup ∧
        ∀ kv ∈ mapInsert tbl.items r.id r, (kv.2).id = kv.1 :=
    fun r => wf_mapInsert_row r hnd hid
  unfold Table.upsert
  dsimp only
  split
  · split
    · exact ⟨hnd, hid⟩
    · exact hins (Row.live _ item (some now))
  · exact hins (Row.live _ item (some now))

theorem wf_delete {T : Type} (sha256hex : Str → Str)
    {tbl : Table T} (key : Str) (now : Nat) (h : tbl.WF) :
    ((tbl.delete sha256hex key now).2).WF := by
  obtain ⟨hnd, hid⟩ := h
  have hins : ∀ r : Row T,
      ((mapInsert tbl.items r.id r).map Prod.fst).Nodup ∧
        ∀ kv ∈ mapInsert tbl.items r.id r, (kv.2).id = kv.1 :=
    fun r => wf_mapInsert_row r hnd hid
  unfold Table.delete
  dsimp only
  split
  · exact hins (Row.tombstone _ now)
  · exact ⟨hnd, hid⟩

theorem wf_applyOps {T : Type} [DecidableEq T] (sha256hex : Str → Str) (key : T → Str)
    {tbl : Table T} (ops : List (Op T)) (h : tbl.WF) :
    (tbl.applyOps sha256hex key ops).WF := by
  induction ops generalizing tbl with
  | nil => exact h
  | cons op rest ih =>
    cases op with
    | upsert v now => exact ih (wf_upsert sha256hex key v now h)
    | delete k now => exact ih (wf_delete sha256hex k now h)

theorem wf_parseLines {T : Type} (dec : Str → Option (Row T)) (fname : Str)
    (ls : List Str) (acc' : List (Str × Row T)) :
    ∀ acc, accWF acc → parseLines dec fname ls acc = .ok acc' → accWF acc' := by
  induction ls with
  | nil =>
    intro acc h heq
    simp only [parseLines] at heq
    cases heq
    exact h
  | cons l rest ih =>
    intro acc h heq
    by_cases hb : isBlank l
    · simp only [parseLines, hb, if_pos] at heq
      exact ih acc h heq
    · rcases hd : dec l with _ | r
      · simp [parseLines, hb, hd] at heq
      · simp only [parseLines, hb, hd, Bool.false_eq_true, if_neg,
          not_false_iff] at heq
        exact ih _ (wf_mapInsert_row r h.1 h.2) heq

theorem wf_loadFiles {T : Type} (dec : Str → Option (Row T))
    (entries : List DirEntry) (acc' : List (Str × Row T)) :
    ∀ acc, accWF acc → loadFiles dec entries acc = .ok acc' → accWF acc' := by
  induction entries with
  | nil =>
    intro acc h heq
    simp only [loadFiles] at heq
    cases heq
    exact h
  | cons e rest ih =>
    intro acc h heq
    by_cases hm : isShardFileName e.name
    · rcases ha : e.access with _ | ⟨content, readErr⟩
      · simp only [loadFiles, hm, if_pos, ha] at heq
        exact ih acc h heq
      · simp only [loadFiles, hm, if_pos, ha] at heq
        rcases hp : parseLines dec e.name (splitLines content) acc with err | acc''
        · simp [hp] at heq
        · simp only [hp] at heq
          cases readErr with
          | false =>
            simp only [Bool.false_eq_true, if_neg, not_false_iff] at heq
            exact ih _ (wf_parseLines dec e.name _ _ acc h hp) heq
          | true => simp at heq
    · simp only [loadFiles, hm, Bool.false_eq_true, if_neg, not_false_iff] at heq
      exact ih acc h heq

theorem wf_load {T : Type} (dec : Str → Option (Row T))
    {sc L : Nat} {dir : Option (List DirEntry)} {tbl : Table T}
    (h : Table.load dec sc L dir = .ok tbl) : tbl.WF := by
  rcases dir with _ | entries
  · simp only [Table.load] at h
    cases h
    exact ⟨by simp, by simp⟩
  · simp only [Table.load] at h
    rcases hl : loadFiles dec entries ([] : List (Str × Row T)) with err | items
    · simp [hl] at h
    · simp only [hl] at h
      cases h
      exact wf_loadFiles dec entries items [] ⟨by simp, by simp⟩ hl

/-! ## Claim C7: upsert idempotence -/

/-- C7: if the table holds a live row at `hash_id(v.key(), L)` whose payload
is structurally equal to `v`, then `upsert(v)` leaves the table unchanged, in
particular preserving that row's `updated_at`. -/
theorem C7_upsert_idempotent {T : Type} [DecidableEq T] (sha256hex : Str → Str)
    (key : T → Str) (tbl : Table T) (item : T) (now : Nat) (i : Str) (u : Option Nat)
    (hlook : mapLookup tbl.items (hash_id sha256hex (key item) tbl.id_length)
      = some (Row.live i item u)) :
    tbl.upsert sha256hex key item now = tbl := by
  unfold Table.upsert
  dsimp only
  rw [hlook]
  simp

theorem C7_witness :
    mapLookup (⟨[(['a', 'b'], Row.live ['a', 'b'] (7 : Nat) (some 3))], 0, 2⟩ :
        Table Nat).items
        (hash_id (fun _ => ['a', 'b', 'c', 'd'])
          ((fun _ => ([] : Str)) (7 : Nat))
          (⟨[(['a', 'b'], Row.live ['a', 'b'] (7 : Nat) (some 3))], 0, 2⟩ :
            Table Nat).id_length)
      = some (Row.live ['a', 'b'] (7 : Nat) (some 3))
    ∧ Table.upsert (fun _ => ['a', 'b', 'c', 'd']) (fun _ => ([] : Str))
        (⟨[(['a', 'b'], Row.live ['a', 'b'] (7 : Nat) (some 3))], 0, 2⟩ : Table Nat)
        7 99
      = ⟨[(['a', 'b'], Row.live ['a', 'b'] (7 : Nat) (some 3))], 0, 2⟩ :=
  ⟨by decide,
    C7_upsert_idempotent (fun _ => ['a', 'b', 'c', 'd']) (fun _ => ([] : Str))
      ⟨[(['a', 'b'], Row.live ['a', 'b'] (7 : Nat) (some 3))], 0, 2⟩ 7 99
      ['a', 'b'] (some 3) (by decide)⟩

/-! ## Claim C8: delete semantics -/

/-- C8: `delete(k)` replaces the row with a tombstone and returns the id iff
the map holds a live row at `hash_id(k, L)`; otherwise (absent id or
tombstone) it returns not-found and the map is unchanged. -/
theorem C8_delete_semantics {T : Type} (sha256hex : Str → Str)
    (tbl : Table T) (key : Str) (now : Nat) :
    (∀ i v u, mapLookup tbl.items (hash_id sha256hex key tbl.id_length)
        = some (Row.live i v u) →
      tbl.delete sha256hex key now =
        (some (hash_id sha256hex key tbl.id_length),
         { tbl with items := (mapInsert tbl.items (hash_id sha256hex key tbl.id_length)
            (Row.tombstone (hash_id sha256hex key tbl.id_length) now)) }))
    ∧ ((∀ i v u, mapLookup tbl.items (hash_id sha256hex key tbl.id_length)
        ≠ some (Row.live i v u)) →
      tbl.delete sha256hex key now = (none, tbl))
    ∧ (∀ i d, mapLookup tbl.items (hash_id sha256hex key tbl.id_length)
        = some (Row.tombstone i d) →
      tbl.delete sha256hex key now = (none, tbl))
    ∧ (mapLookup tbl.items (hash_id sha256hex key tbl.id_length) = none →
      tbl.delete sha256hex key now = (none, tbl)) := by
  refine ⟨?_, ?_, ?_, ?_⟩
  · intro i v u h
    unfold Table.delete
    dsimp only
    rw [h]
  · intro h
    unfold Table.delete
    dsimp only
    rcases hl : mapLookup tbl.items (hash_id sha256hex key tbl.id_length) with _ | r
    · rfl
    · cases r with
      | tombstone i d => rfl
      | live i v u => exact absurd hl (h i v u)
  · intro i d h
    unfold Table.delete
    dsimp only
    rw [h]
  · intro h
    unfold Table.delete
    dsimp only
    rw [h]

theorem C8_witness :
    mapLookup (⟨[(['a'], Row.live ['a'] (5 : Nat) none)], 0, 1⟩ : Table Nat).items
        (hash_id (fun _ => ['a', 'b']) ['x']
          (⟨[(['a'], Row.live ['a'] (5 : Nat) none)], 0, 1⟩ : Table Nat).id_length)
      = some (Row.live ['a'] (5 : Nat) none)
    ∧ Table.delete (fun _ => ['a', 'b'])
        (⟨[(['a'], Row.live ['a'] (5 : Nat) none)], 0, 1⟩ : Table Nat) ['x'] 9
      = (some ['a'],
         ⟨[(['a'], Row.tombstone ['a'] 9)], 0, 1⟩) :=
  ⟨by decide, by
    have h := (C8_delete_semantics (fun _ => ['a', 'b'])
      (⟨[(['a'], Row.live ['a'] (5 : Nat) none)], 0, 1⟩ : Table Nat) ['x'] 9).1
      ['a'] 5 none (by decide)
    rw [h]
    decide⟩

/-! ## Claim C10: the map-key invariant -/

/-- C10: load, upsert and delete preserve the invariant that each map entry
is stored under a key equal to the id embedded in the row, and under that
invariant no two rows share an id. -/
theorem C10_map_key_invariant {T : Type} [DecidableEq T] :
    (∀ (dec : Str → Option (Row T)) (sc L : Nat) (dir : Option (List DirEntry))
        (tbl : Table T), Table.load dec sc L dir = .ok tbl → tbl.WF)
    ∧ (∀ (sha256hex : Str → Str) (key : T → Str) (tbl : Table T) (item : T)
        (now : Nat), tbl.WF → (tbl.upsert sha256hex key item now).WF)
    ∧ (∀ (sha256hex : Str → Str) (tbl : Table T) (k : Str) (now : Nat),
        tbl.WF → ((tbl.delete sha256hex k now).2).WF)
    ∧ (∀ tbl : Table T, tbl.WF → (tbl.items.map (fun kv => (kv.2).id)).Nodup) := by
  refine ⟨fun dec sc L dir tbl h => wf_load dec h,
    fun sha key tbl item now h => wf_upsert sha key item now h,
    fun sha tbl k now h => wf_delete sha k now h,
    fun tbl h => ?_⟩
  have : tbl.items.map (fun kv => (kv.2).id) = tbl.items.map Prod.fst :=
    List.map_congr_left (fun kv hkv => h.2 kv hkv)
  rw [this]
  exact h.1

theorem C10_witness :
    (⟨[(['a'], Row.live ['a'] (0 : Nat) none)], 0, 1⟩ : Table Nat).WF
    ∧ ((⟨[(['a'], Row.live ['a'] (0 : Nat) none)], 0, 1⟩ : Table Nat).upsert
        (fun _ => ['a', 'b']) (fun _ => ([] : Str)) 5 9).WF :=
  ⟨⟨by decide, by decide⟩,
    (@C10_map_key_invariant Nat _).2.1 (fun _ => ['a', 'b'])
      (fun _ => ([] : Str)) ⟨[(['a'], Row.live ['a'] (0 : Nat) none)], 0, 1⟩ 5 9
      ⟨by decide, by decide⟩⟩

/-! ## Claim C2: last-writer-wins merge -/

theorem mergeRemote_lookup_not_mem {T : Type} (remote : List (Str × Row T)) :
    ∀ (tbl : Table T) (i : Str), i ∉ remote.map Prod.fst →
      mapLookup (tbl.mergeRemote remote).items i = mapLookup tbl.items i := by
  induction remote with
  | nil => intro tbl i _; rfl
  | cons kv rest ih =>
    obtain ⟨k, rr⟩ := kv
    intro tbl i h
    simp only [List.map_cons, List.mem_cons, not_or] at h
    rcases hl : mapLookup tbl.items k with _ | lr
    · simp only [Table.mergeRemote, hl]
      rw [ih _ i h.2]
      exact mapLookup_mapInsert_ne _ _ _ _ (fun he => h.1 (he ▸ rfl))
    · simp only [Table.mergeRemote, hl]
      by_cases ht : optTsLt lr.mergeTs rr.mergeTs
      · rw [if_pos ht, ih _ i h.2]
        exact mapLookup_mapInsert_ne _ _ _ _ (fun he => h.1 (he ▸ rfl))
      · rw [if_neg ht, ih _ i h.2]

theorem mergeRemote_lookup_char {T : Type} (remote : List (Str × Row T)) :
    ∀ (tbl : Table T), (remote.map Prod.fst).Nodup → ∀ i,
      mapLookup (tbl.mergeRemote remote).items i =
        match mapLookup remote i, mapLookup tbl.items i with
        | none, l => l
        | some rr, none => some rr
        | some rr, some lr =>
            some (if optTsLt lr.mergeTs rr.mergeTs then rr else lr) := by
  induction remote with
  | nil =>
    intro tbl _ i
    rfl
  | cons kv rest ih =>
    obtain ⟨k, rr⟩ := kv
    intro tbl hnd i
    simp only [List.map_cons, List.nodup_cons] at hnd
    by_cases hik : i = k
    · subst hik
      rw [show mapLookup ((i, rr) :: rest) i = some rr from by simp [mapLookup]]
      rcases hl : mapLookup tbl.items i with _ | lr
      · simp only [Table.mergeRemote, hl]
        rw [mergeRemote_lookup_not_mem rest _ i hnd.1, mapLookup_mapInsert_self]
      · simp only [Table.mergeRemote, hl]
        by_cases ht : optTsLt lr.mergeTs rr.mergeTs
        · rw [if_pos ht, mergeRemote_lookup_not_mem rest _ i hnd.1,
            mapLookup_mapInsert_self, if_pos ht]
        · rw [if_neg ht, mergeRemote_lookup_not_mem rest _ i hnd.1, hl, if_neg ht]
    · rw [show mapLookup ((k, rr) :: rest) i = mapLookup rest i from by
        simp [mapLookup, Ne.symm hik]]
      have hstep : ∀ tbl' : Table T,
          mapLookup tbl'.items i = mapLookup tbl.items i →
          mapLookup (Table.mergeRemote tbl' rest).items i =
            match mapLookup rest i, mapLookup tbl.items i with
            | none, l => l
            | some rr', none => some rr'
            | some rr', some lr =>
                some (if optTsLt lr.mergeTs rr'.mergeTs then rr' else lr) := by
        intro tbl' he
        rw [ih tbl' hnd.2 i, he]
      rcases hl : mapLookup tbl.items k with _ | lr
      · simp only [Table.mergeRemote, hl]
        exact hstep _ (by
          rw [mapLookup_mapInsert_ne _ _ _ _ (Ne.symm hik)])
      · simp only [Table.mergeRemote, hl]
        by_cases ht : optTsLt lr.mergeTs rr.mergeTs
        · rw [if_pos ht]
          exact hstep _ (by
            rw [mapLookup_mapInsert_ne _ _ _ _ (Ne.symm hik)])
        · rw [if_neg ht]
          exact hstep _ rfl

/-- C2 (amended): `merge_remote` decides each id by the timestamp order on
the larger of `updated_at` / `deleted_at`, with ties kept local, adopting
entries present only remotely and keeping entries present only locally; a
remote tombstone displaces a local live row iff its `deleted_at` is strictly
later than the live row's `updated_at` (an absent `updated_at` always loses),
while a local tombstone survives a remote live row iff its `deleted_at` is
not earlier than the remote row's `updated_at`. -/
theorem C2_merge_remote_lww {T : Type} (remote : List (Str × Row T))
    (tbl : Table T) (hnd : (remote.map Prod.fst).Nodup) :
    (∀ i, mapLookup (tbl.mergeRemote remote).items i =
      match mapLookup remote i, mapLookup tbl.items i with
      | none, l => l
      | some rr, none => some rr
      | some rr, some lr =>
          some (if optTsLt lr.mergeTs rr.mergeTs then rr else lr))
    ∧ (∀ i i1 i2 v u d, mapLookup tbl.items i = some (Row.live i1 v u) →
        mapLookup remote i = some (Row.tombstone i2 d) →
        mapLookup (tbl.mergeRemote remote).items i =
          some (if optTsLt u (some d) then Row.tombstone i2 d else Row.live i1 v u))
    ∧ (∀ i i1 i2 v u d, mapLookup tbl.items i = some (Row.tombstone i1 d) →
        mapLookup remote i = some (Row.live i2 v u) →
        mapLookup (tbl.mergeRemote remote).items i =
          some (if optTsLt (some d) u then Row.live i2 v u else Row.tombstone i1 d)) := by
  have hc := mergeRemote_lookup_char remote tbl hnd
  refine ⟨hc, ?_, ?_⟩
  · intro i i1 i2 v u d hloc hrem
    rw [hc i, hloc, hrem]
    rfl
  · intro i i1 i2 v u d hloc hrem
    rw [hc i, hloc, hrem]
    rfl

theorem C2_witness :
    ((([(['a'], Row.tombstone ['a'] 9), (['b'], Row.live ['b'] () none)] :
        List (Str × Row Unit)).map Prod.fst).Nodup)
    ∧ mapLookup ((⟨[(['a'], Row.live ['a'] () (some 1))], 0, 1⟩ :
          Table Unit).mergeRemote
          [(['a'], Row.tombstone ['a'] 9), (['b'], Row.live ['b'] () none)]).items
        ['a'] = some (Row.tombstone ['a'] 9)
    ∧ mapLookup ((⟨[(['a'], Row.live ['a'] () (some 1))], 0, 1⟩ :
          Table Unit).mergeRemote
          [(['a'], Row.tombstone ['a'] 9), (['b'], Row.live ['b'] () none)]).items
        ['b'] = some (Row.live ['b'] () none) :=
  ⟨by decide,
    by
      have h := (C2_merge_remote_lww
        [(['a'], Row.tombstone ['a'] 9), (['b'], Row.live ['b'] () none)]
        (⟨[(['a'], Row.live ['a'] () (some 1))], 0, 1⟩ : Table Unit)
        (by decide)).1 ['a']
      rw [h]
      decide,
    by
      have h := (C2_merge_remote_lww
        [(['a'], Row.tombstone ['a'] 9), (['b'], Row.live ['b'] () none)]
        (⟨[(['a'], Row.live ['a'] () (some 1))], 0, 1⟩ : Table Unit)
        (by decide)).1 ['b']
      rw [h]
      decide⟩

theorem C2_tombstone_tie_counterexample : ¬ TombstoneBeatsLiveClaim := by
  intro h
  exact absurd ((h ['a'] 5 5).mpr (by decide)) (by decide)


/-! ## Claim C5: the sync cleanliness check -/

/-- C5 (amended): with a repository present, sync proceeds iff no changed
path is a data file in the sense of `is_data_file` (a path containing a
directory separator and ending in `.jsonl`); every `<table>/items_*.jsonl`
shard path is such a data file, and any path that does not end in `.jsonl`
(lock files, unrelated files) never makes the tree dirty; with no repository
the check is skipped. -/
theorem C5_sync_clean_check (statuses : List Str) :
    (syncCleanCheck (some statuses) = .ok () ↔
      ∀ p ∈ statuses, is_data_file p = false)
    ∧ (∀ p, SpecShardPath p → is_data_file p = true)
    ∧ (∀ p, ".jsonl".toList.isSuffixOf p = false → is_data_file p = false)
    ∧ syncCleanCheck none = .ok () := by
  refine ⟨?_, ?_, ?_, rfl⟩
  · constructor
    · intro hok p hp
      by_contra hbad
      rw [Bool.not_eq_false] at hbad
      have hany : statuses.any is_data_file = true :=
        List.any_eq_true.mpr ⟨p, hp, hbad⟩
      simp [syncCleanCheck, ensure_clean, is_clean, hany] at hok
    · intro hall
      have hany : statuses.any is_data_file = false := by
        rw [List.any_eq_false]
        intro p hp
        simp [hall p hp]
      simp [syncCleanCheck, ensure_clean, is_clean, hany]
  · rintro p ⟨t, x, hslash, rfl⟩
    unfold is_data_file
    rw [Bool.and_eq_true]
    constructor
    · exact List.elem_iff.mpr
        (List.mem_append.mpr (Or.inr (List.mem_cons_self _ _)))
    · rw [List.isSuffixOf_iff_suffix]
      have h1 : ".jsonl".toList <:+ (("items_".toList ++ x) ++ ".jsonl".toList) :=
        List.suffix_append _ _
      exact (h1.trans (List.suffix_cons '/' _)).trans (List.suffix_append t _)
  · intro p h
    unfold is_data_file
    rw [h]
    simp

theorem C5_witness :
    SpecShardPath ("feeds/items_aa.jsonl".toList)
    ∧ is_data_file ("feeds/items_aa.jsonl".toList) = true :=
  ⟨⟨"feeds".toList, ['a', 'a'], by decide, by decide⟩,
    (C5_sync_clean_check []).2.1 ("feeds/items_aa.jsonl".toList)
      ⟨"feeds".toList, ['a', 'a'], by decide, by decide⟩⟩

/-- Counterexample to C5 as stated: `feeds/extra.jsonl` does not match
`<table>/items_*.jsonl`, yet `is_data_file` holds of it, so `ensure_clean`
fails on a tree whose only change is that unrelated file. -/
theorem C5_counterexample :
    is_data_file ("feeds/extra.jsonl".toList) = true
    ∧ ¬ SpecShardPath ("feeds/extra.jsonl".toList)
    ∧ ensure_clean ["feeds/extra.jsonl".toList] = .error .dirtyTree := by
  refine ⟨by decide, ?_, rfl⟩
  rintro ⟨t, x, hslash, heq⟩
  have h1 : ("feeds/extra.jsonl".toList).takeWhile (fun a => !(a = '/' : Bool)) = t := by
    rw [heq]
    exact takeWhile_append_stop '/' _ t (fun a ha he => hslash (he ▸ ha))
  have hval : ("feeds/extra.jsonl".toList).takeWhile (fun a => !(a = '/' : Bool))
      = "feeds".toList := by decide
  have ht : t = "feeds".toList := h1.symm.trans hval
  subst ht
  have h2 := congrArg (List.drop 6) heq
  rw [List.append_cons] at h2
  have hfl : ("feeds".toList ++ ['/']) = "feeds/".toList := by decide
  rw [hfl] at h2
  rw [show (6 : Nat) = ("feeds/".toList).length + 0 from rfl, List.drop_append,
    List.drop_zero] at h2
  have h3 := congrArg (List.take 6) h2
  rw [List.append_assoc] at h3
  rw [List.take_append_of_le_length (by decide)] at h3
  exact absurd h3 (by decide)

/-! ## Claim C4: load failure modes -/

theorem parseLines_parseError {T : Type} (dec : Str → Option (Row T))
    (fname : Str) (ls : List Str) :
    ∀ (acc : List (Str × Row T)) (f' : Str),
      parseLines dec fname ls acc = .error (.parseError f') →
      f' = fname ∧ ∃ l ∈ ls, isBlank l = false ∧ dec l = none := by
  induction ls with
  | nil =>
    intro acc f' h
    simp [parseLines] at h
  | cons l rest ih =>
    intro acc f' h
    by_cases hb : isBlank l
    · rw [parseLines, if_pos hb] at h
      obtain ⟨hf, l', hl', hrest⟩ := ih acc f' h
      exact ⟨hf, l', List.mem_cons.mpr (Or.inr hl'), hrest⟩
    · rcases hd : dec l with _ | r
      · rw [parseLines, if_neg hb, hd] at h
        cases h
        exact ⟨rfl, l, List.mem_cons_self _ _, by simpa using hb, hd⟩
      · rw [parseLines, if_neg hb, hd] at h
        obtain ⟨hf, l', hl', hrest⟩ := ih _ f' h
        exact ⟨hf, l', List.mem_cons.mpr (Or.inr hl'), hrest⟩

theorem loadFiles_parseError {T : Type} (dec : Str → Option (Row T))
    (entries : List DirEntry) :
    ∀ (acc : List (Str × Row T)) (f' : Str),
      loadFiles dec entries acc = .error (.parseError f') →
      ∃ e ∈ entries, e.name = f' ∧ isShardFileName e.name = true ∧
        ∃ c re, e.access = .readable c re ∧
          ∃ l ∈ splitLines c, isBlank l = false ∧ dec l = none := by
  induction entries with
  | nil =>
    intro acc f' h
    simp [loadFiles] at h
  | cons e rest ih =>
    intro acc f' h
    by_cases hm : isShardFileName e.name
    · rcases ha : e.access with _ | ⟨c, re⟩
      · simp only [loadFiles, hm, if_pos, ha] at h
        obtain ⟨e', he', rest'⟩ := ih acc f' h
        exact ⟨e', List.mem_cons.mpr (Or.inr he'), rest'⟩
      · simp only [loadFiles, hm, if_pos, ha] at h
        rcases hp : parseLines dec e.name (splitLines c) acc with err | acc'
        · rw [hp] at h
          cases h
          obtain ⟨hf, l, hl, hline⟩ := parseLines_parseError dec e.name _ acc f' hp
          exact ⟨e, List.mem_cons_self _ _, hf.symm, hm, c, re, ha, l, hl, hline⟩
        · rw [hp] at h
          cases re with
          | true => simp at h
          | false =>
            simp only [Bool.false_eq_true, if_neg, not_false_iff] at h
            obtain ⟨e', he', rest'⟩ := ih acc' f' h
            exact ⟨e', List.mem_cons.mpr (Or.inr he'), rest'⟩
    · simp only [loadFiles, hm, Bool.false_eq_true, if_neg, not_false_iff] at h
      obtain ⟨e', he', rest'⟩ := ih acc f' h
      exact ⟨e', List.mem_cons.mpr (Or.inr he'), rest'⟩

/-- C4 (amended): a non-parsing line fails the load with an error naming the
offending file; a missing table directory yields an empty table; a present
shard file that cannot be opened is silently skipped rather than an error;
a line-read failure on an opened shard file is a hard error. -/
theorem C4_load_failure_modes {T : Type} (dec : Str → Option (Row T)) :
    (∀ (sc L : Nat) (entries : List DirEntry) (f' : Str),
        Table.load dec sc L (some entries) = .error (.parseError f') →
        ∃ e ∈ entries, e.name = f' ∧ isShardFileName e.name = true ∧
          ∃ c re, e.access = .readable c re ∧
            ∃ l ∈ splitLines c, isBlank l = false ∧ dec l = none)
    ∧ (∀ sc L : Nat, Table.load dec sc L none = .ok ⟨[], sc, L⟩)
    ∧ (∀ (e : DirEntry) (rest : List DirEntry) (acc : List (Str × Row T)),
        e.access = .openFail →
        loadFiles dec (e :: rest) acc = loadFiles dec rest acc)
    ∧ (∀ (name c : Str) (rest : List DirEntry) (acc acc' : List (Str × Row T)),
        isShardFileName name = true →
        parseLines dec name (splitLines c) acc = .ok acc' →
        loadFiles dec (⟨name, .readable c true⟩ :: rest) acc
          = .error .readLineError) := by
  refine ⟨?_, fun sc L => rfl, ?_, ?_⟩
  · intro sc L entries f' h
    rw [Table.load] at h
    rcases hl : loadFiles dec entries ([] : List (Str × Row T)) with err | items
    · rw [hl] at h
      cases h
      exact loadFiles_parseError dec entries [] f' hl
    · rw [hl] at h
      cases h
  · intro e rest acc ha
    by_cases hm : isShardFileName e.name
    · simp only [loadFiles, hm, if_pos, ha]
    · simp only [loadFiles, hm, Bool.false_eq_true, if_neg, not_false_iff]
  · intro name c rest acc acc' hm hp
    simp only [loadFiles, hm, if_pos]
    rw [hp]

theorem C4_witness :
    Table.load (fun _ => (none : Option (Row Unit))) 2 4
        (some [⟨"items_a.jsonl".toList, .readable ['x'] false⟩])
      = .error (.parseError ("items_a.jsonl".toList))
    ∧ ∃ e ∈ [(⟨"items_a.jsonl".toList, .readable ['x'] false⟩ : DirEntry)],
        e.name = "items_a.jsonl".toList ∧ isShardFileName e.name = true ∧
        ∃ c re, e.access = .readable c re ∧
          ∃ l ∈ splitLines c, isBlank l = false ∧
            (fun _ => (none : Option (Row Unit))) l = none :=
  ⟨rfl,
    (C4_load_failure_modes (fun _ => (none : Option (Row Unit)))).1 2 4
      [⟨"items_a.jsonl".toList, .readable ['x'] false⟩]
      ("items_a.jsonl".toList) rfl⟩

/-- Counterexample to C4 as stated: a present shard file on which
`File::open` fails loads successfully as an empty table instead of raising a
hard error. -/
theorem C4_counterexample :
    Table.load (fun _ => (none : Option (Row Unit))) 2 6
        (some [⟨"items_aa.jsonl".toList, .openFail⟩]) = .ok ⟨[], 2, 6⟩
    ∧ ∀ e, Table.load (fun _ => (none : Option (Row Unit))) 2 6
        (some [⟨"items_aa.jsonl".toList, .openFail⟩]) ≠ .error e := by
  have h0 : Table.load (fun _ => (none : Option (Row Unit))) 2 6
      (some [⟨"items_aa.jsonl".toList, .openFail⟩]) = .ok ⟨[], 2, 6⟩ := by rfl
  exact ⟨h0, fun e he => by rw [h0] at he; cases he⟩


/-! ## Claim C1: atomic save under Phase 1 write failure -/

/-- C1: if a shard write fails during Phase 1 of `Table::save`, the write
error is returned, every change to the directory is the deletion of a
temporary (`*.jsonl.tmp`) file, no final-named shard file is touched, and a
subsequent load yields exactly the pre-save state. -/
theorem C1_atomic_save_failure {T : Type} (enc : Row T → Str) (tbl : Table T)
    (dir : Option (List DirEntry)) (wfail : Str → Bool)
    (fs' : List DirEntry) (e : SaveErr)
    (h : Table.save enc tbl dir wfail = (fs', some e)) :
    (∃ pfx, e = .writeFailed (tmpName pfx) ∧ wfail (tmpName pfx) = true)
    ∧ (∀ n, isShardFileName n = true → fsLookup fs' n = fsLookup (dir.getD []) n)
    ∧ (∀ n, fsLookup fs' n = fsLookup (dir.getD []) n ∨
        (fsLookup fs' n = none ∧ ".jsonl.tmp".toList.isSuffixOf n = true))
    ∧ (∀ (U : Type) (dec : Str → Option (Row U)) (sc L : Nat),
        Table.load dec sc L (some fs') = Table.load dec sc L dir) := by
  unfold Table.save at h
  dsimp only at h
  rcases hsp : savePhase1 enc wfail (groupByShard tbl.shard_characters tbl.items)
      (dir.getD []) [] with ⟨fs1, tmps1, err⟩
  cases err with
  | none =>
    rw [hsp] at h
    simp only [Prod.mk.injEq] at h
    cases h.2
  | some e' =>
    rw [hsp] at h
    simp only [Prod.mk.injEq] at h
    obtain ⟨h1, h2⟩ := h
    injection h2 with h2
    subst h1
    subst h2
    obtain ⟨c1, _, c3, c4⟩ :=
      savePhase1_failure enc wfail _ _ _ _ _ _ (by simp) hsp
    refine ⟨c1, ?_, ?_, ?_⟩
    · intro n hn
      rcases c3 n with hA | hB
      · exact hA
      · obtain ⟨p, hp⟩ := hB.2
        rw [hp, isShardFileName_tmpName] at hn
        cases hn
    · intro n
      rcases c3 n with hA | hB
      · left; exact hA
      · right
        obtain ⟨p, hp⟩ := hB.2
        exact ⟨hB.1, hp ▸ jsonlTmp_suffix_tmpName p⟩
    · intro U dec sc L
      rcases dir with _ | fs0
      · rw [show Table.load dec sc L none = .ok ⟨[], sc, L⟩ from rfl]
        rw [Table.load, loadFiles_eq_shardView]
        rw [show shardView fs1 = [] from by simpa using c4]
        rfl
      · rw [Table.load, Table.load,
          loadFiles_congr_shardView dec (by simpa using c4)]

theorem C1_witness :
    Table.save (fun _ => ['r']) (⟨[(['a', 'b'], Row.live ['a', 'b'] () none)], 1, 2⟩ :
        Table Unit) none (fun _ => true)
      = ([], some (.writeFailed (tmpName ['a'])))
    ∧ (∃ pfx, SaveErr.writeFailed (tmpName ['a']) = .writeFailed (tmpName pfx) ∧
        (fun _ => true : Str → Bool) (tmpName pfx) = true)
    ∧ (∀ (U : Type) (dec : Str → Option (Row U)) (sc L : Nat),
        Table.load dec sc L (some ([] : List DirEntry))
          = Table.load dec sc L (none : Option (List DirEntry))) := by
  have h0 : Table.save (fun _ => ['r'])
      (⟨[(['a', 'b'], Row.live ['a', 'b'] () none)], 1, 2⟩ : Table Unit)
      none (fun _ => true)
      = ([], some (.writeFailed (tmpName ['a']))) := by
    rw [show tmpName ['a'] = "items_a.jsonl.tmp".toList from by decide]
    decide
  have h := C1_atomic_save_failure (fun _ => ['r'])
    (⟨[(['a', 'b'], Row.live ['a', 'b'] () none)], 1, 2⟩ : Table Unit)
    none (fun _ => true) [] (.writeFailed (tmpName ['a'])) h0
  exact ⟨h0, h.1, h.2.2.2⟩

/-! ## Claim C6: a failing transaction closure saves nothing -/

/-- C6: if the transaction closure returns an error, `Store::transaction`
surfaces that error and performs no saves, so the on-disk directory of every
table is unchanged. -/
theorem C6_transaction_error_no_save {TF TP α : Type}
    (encF : Row TF → Str) (encP : Row TP → Str) (s : Store TF TP)
    (dF dP : Option (List DirEntry)) (wfailF wfailP : Str → Bool)
    (f : Table TF → Table TP → Table TF × Table TP × Except SaveErr α)
    (feeds' : Table TF) (posts' : Table TP) (e : SaveErr)
    (h : f s.feeds s.posts = (feeds', posts', .error e)) :
    Store.transaction encF encP s dF dP wfailF wfailP f
      = (.error e, ⟨feeds', posts'⟩, dF, dP) := by
  unfold Store.transaction
  rw [h]

theorem C6_witness :
    ((fun (a : Table Unit) (b : Table Unit) =>
        (a, b, (Except.error (SaveErr.writeFailed ['p']) : Except SaveErr Unit)))
      (Store.mk (⟨[], 0, 4⟩ : Table Unit) (⟨[], 1, 5⟩ : Table Unit)).feeds
      (Store.mk (⟨[], 0, 4⟩ : Table Unit) (⟨[], 1, 5⟩ : Table Unit)).posts
      = ((⟨[], 0, 4⟩ : Table Unit), (⟨[], 1, 5⟩ : Table Unit),
          Except.error (SaveErr.writeFailed ['p'])))
    ∧ Store.transaction (fun _ => []) (fun _ => [])
        (Store.mk (⟨[], 0, 4⟩ : Table Unit) (⟨[], 1, 5⟩ : Table Unit))
        (some []) none (fun _ => false) (fun _ => false)
        (fun a b =>
          (a, b, (Except.error (SaveErr.writeFailed ['p']) : Except SaveErr Unit)))
      = (.error (.writeFailed ['p']),
          Store.mk (⟨[], 0, 4⟩ : Table Unit) (⟨[], 1, 5⟩ : Table Unit),
          some [], none) :=
  ⟨rfl,
    C6_transaction_error_no_save (fun _ => []) (fun _ => [])
      (Store.mk (⟨[], 0, 4⟩ : Table Unit) (⟨[], 1, 5⟩ : Table Unit))
      (some []) none (fun _ => false) (fun _ => false)
      (fun a b =>
        (a, b, (Except.error (SaveErr.writeFailed ['p']) : Except SaveErr Unit)))
      ⟨[], 0, 4⟩ ⟨[], 1, 5⟩ (SaveErr.writeFailed ['p']) rfl⟩

/-! ## Round-trip: reading back what save wrote -/

theorem splitLines_ne_nil : ∀ s : Str, splitLines s ≠ [] := by
  intro s
  induction s with
  | nil => simp [splitLines]
  | cons a rest ih =>
    simp only [splitLines]
    rcases hs : splitLines rest with _ | ⟨h0, t0⟩
    · simp
    · by_cases ha : a = '\n'
      · simp [ha]
      · simp [ha]

theorem splitLines_append_newline :
    ∀ xs rest : Str, ¬ '\n' ∈ xs →
      splitLines (xs ++ '\n' :: rest) = xs :: splitLines rest := by
  intro xs
  induction xs with
  | nil =>
    intro rest _
    simp only [List.nil_append, splitLines]
    rcases hs : splitLines rest with _ | ⟨h0, t0⟩
    · exact absurd hs (splitLines_ne_nil rest)
    · simp [hs]
  | cons a xs ih =>
    intro rest hnl
    have ha : a ≠ '\n' := fun h => hnl (h ▸ List.mem_cons_self a xs)
    have hxs : ¬ '\n' ∈ xs := fun h => hnl (List.mem_cons_of_mem a h)
    simp only [List.cons_append, splitLines, ih rest hxs]
    simp [ha, ih rest hxs]

theorem splitLines_encodeRows {T : Type} (enc : Row T → Str) :
    ∀ rows : List (Row T), (∀ r ∈ rows, ¬ '\n' ∈ enc r) →
      splitLines (encodeRows enc rows) = rows.map enc ++ [[]] := by
  intro rows
  induction rows with
  | nil => intro _; rfl
  | cons r rs ih =>
    intro h
    simp only [encodeRows, List.map_cons, List.cons_append]
    rw [splitLines_append_newline (enc r) (encodeRows enc rs)
        (h r (List.mem_cons_self r rs)),
      ih (fun r' hr' => h r' (List.mem_cons_of_mem r hr'))]

theorem parseLines_encoded {T : Type} (dec : Str → Option (Row T))
    (enc : Row T → Str) (fname : Str) :
    ∀ rows : List (Row T),
      (∀ r ∈ rows, dec (enc r) = some r) →
      (∀ r ∈ rows, isBlank (enc r) = false) →
      ∀ acc, parseLines dec fname (rows.map enc ++ [[]]) acc
        = .ok (rows.foldl (fun acc r => mapInsert acc r.id r) acc) := by
  intro rows
  induction rows with
  | nil => intro _ _ acc; rfl
  | cons r rs ih =>
    intro hdec hnb acc
    simp only [List.map_cons, List.cons_append, parseLines, List.foldl_cons]
    rw [hnb r (List.mem_cons_self r rs), if_neg Bool.false_ne_true,
      hdec r (List.mem_cons_self r rs)]
    exact ih (fun r' hr' => hdec r' (List.mem_cons_of_mem r hr'))
      (fun r' hr' => hnb r' (List.mem_cons_of_mem r hr'))
      (mapInsert acc r.id r)

theorem loadFiles_groups {T : Type} (dec : Str → Option (Row T))
    (enc : Row T → Str) :
    ∀ groups : List (Str × List (Row T)),
      (∀ g ∈ groups, ∀ r ∈ g.2, dec (enc r) = some r) →
      (∀ g ∈ groups, ∀ r ∈ g.2, ¬ '\n' ∈ enc r) →
      (∀ g ∈ groups, ∀ r ∈ g.2, isBlank (enc r) = false) →
      ∀ acc, loadFiles dec (groups.map (fun g =>
          ⟨finalName g.1, FileAccess.readable (encodeRows enc (sortRows g.2)) false⟩)) acc
        = .ok (groups.foldl (fun acc g =>
            (sortRows g.2).foldl (fun acc r => mapInsert acc r.id r) acc) acc) := by
  intro groups
  induction groups with
  | nil => intro _ _ _ acc; rfl
  | cons g t ih =>
    intro hdec hnl hnb acc
    simp only [List.map_cons, loadFiles, List.foldl_cons]
    rw [if_pos (isShardFileName_finalName g.1)]
    rw [splitLines_encodeRows enc (sortRows g.2)
        (fun r hr => hnl g (List.mem_cons_self g t) r ((sortRows_perm g.2).mem_iff.mp hr))]
    rw [parseLines_encoded dec enc (finalName g.1) (sortRows g.2)
        (fun r hr => hdec g (List.mem_cons_self g t) r ((sortRows_perm g.2).mem_iff.mp hr))
        (fun r hr => hnb g (List.mem_cons_self g t) r ((sortRows_perm g.2).mem_iff.mp hr))
        acc]
    exact ih (fun g' hg' => hdec g' (List.mem_cons_of_mem g hg'))
      (fun g' hg' => hnl g' (List.mem_cons_of_mem g hg'))
      (fun g' hg' => hnb g' (List.mem_cons_of_mem g hg'))
      ((sortRows g.2).foldl (fun acc r => mapInsert acc r.id r) acc)


theorem lookup_insertFold {T : Type} (i : Str) :
    ∀ rows : List (Row T), ((rows.map Row.id).Nodup) →
      ∀ acc, mapLookup (rows.foldl (fun acc r => mapInsert acc r.id r) acc) i =
        match rows.find? (fun r => decide (r.id = i)) with
        | some r => some r
        | none => mapLookup acc i := by
  intro rows
  induction rows with
  | nil => intro _ acc; rfl
  | cons r rs ih =>
    intro hnd acc
    simp only [List.map_cons, List.nodup_cons] at hnd
    simp only [List.foldl_cons]
    rw [ih hnd.2 (mapInsert acc r.id r)]
    by_cases hri : r.id = i
    · rw [List.find?_cons_of_pos _ (by simpa using hri)]
      rw [show rs.find? (fun r => decide (r.id = i)) = none from by
        rw [List.find?_eq_none]
        intro r' hr' hp
        have : r'.id = r.id := (of_decide_eq_true hp).trans hri.symm
        exact hnd.1 (this ▸ List.mem_map.mpr ⟨r', hr', rfl⟩)]
      rw [← hri]
      exact mapLookup_mapInsert_self acc r.id r
    · rw [List.find?_cons_of_neg _ (by simpa using hri)]
      rcases hf : rs.find? (fun r => decide (r.id = i)) with _ | r'
      · rw [hf]
        exact mapLookup_mapInsert_ne acc r.id r i hri
      · rw [hf]

theorem row_eq_of_id_eq {T : Type} :
    ∀ l : List (Row T), ((l.map Row.id).Nodup) →
      ∀ r r' : Row T, r ∈ l → r' ∈ l → r.id = r'.id → r = r' := by
  intro l
  induction l with
  | nil => intro _ r r' h; simp at h
  | cons a t ih =>
    intro hnd r r' hr hr' hid
    simp only [List.map_cons, List.nodup_cons] at hnd
    rcases List.mem_cons.mp hr with h1 | h1 <;> rcases List.mem_cons.mp hr' with h2 | h2
    · exact h1.trans h2.symm
    · exact absurd ((h1 ▸ hid) ▸ List.mem_map.mpr ⟨r', h2, rfl⟩) hnd.1
    · exact absurd ((h2 ▸ hid.symm) ▸ List.mem_map.mpr ⟨r, h1, rfl⟩) hnd.1
    · exact ih hnd.2 r r' h1 h2 hid

theorem find?_id_eq_of_perm {T : Type} {l1 l2 : List (Row T)}
    (hp : List.Perm l1 l2) (hnd : (l1.map Row.id).Nodup) (i : Str) :
    l1.find? (fun r => decide (r.id = i)) = l2.find? (fun r => decide (r.id = i)) := by
  rcases h1 : l1.find? (fun r => decide (r.id = i)) with _ | r
  · rcases h2 : l2.find? (fun r => decide (r.id = i)) with _ | r'
    · rw [h1, h2]
    · exact absurd (List.find?_some h2)
        (List.find?_eq_none.mp h1 r' (hp.mem_iff.mpr (List.mem_of_find?_eq_some h2)))
  · have hpr := List.find?_some h1
    have hm : r ∈ l1 := List.mem_of_find?_eq_some h1
    rcases h2 : l2.find? (fun r => decide (r.id = i)) with _ | r'
    · exact absurd hpr (List.find?_eq_none.mp h2 r (hp.mem_iff.mp hm))
    · have hpr' := List.find?_some h2
      have hm' : r' ∈ l1 := hp.mem_iff.mpr (List.mem_of_find?_eq_some h2)
      rw [h1, h2, row_eq_of_id_eq l1 hnd r r' hm hm'
        ((of_decide_eq_true hpr).trans (of_decide_eq_true hpr').symm)]

theorem mapLookup_eq_find?_of_ids {T : Type} :
    ∀ items : List (Str × Row T), (∀ kv ∈ items, (kv.2).id = kv.1) →
      ∀ i, mapLookup items i = (items.map Prod.snd).find? (fun r => decide (r.id = i)) := by
  intro items
  induction items with
  | nil => intro _ _; rfl
  | cons kv t ih =>
    intro hid i
    obtain ⟨k, r⟩ := kv
    have hrk : r.id = k := hid (k, r) (List.mem_cons_self _ _)
    simp only [mapLookup, List.map_cons]
    by_cases hk : k = i
    · rw [if_pos hk, List.find?_cons_of_pos _ (by simp [hrk, hk])]
    · rw [if_neg hk, List.find?_cons_of_neg _ (by simp [hrk, hk]),
        ih (fun kv h => hid kv (List.mem_cons_of_mem _ h)) i]

theorem mem_of_mapLookup_eq_some {α : Type} :
    ∀ {m : List (Str × α)} {k : Str} {v : α},
      mapLookup m k = some v → (k, v) ∈ m := by
  intro m
  induction m with
  | nil => intro k v h; cases h
  | cons kv t ih =>
    intro k v h
    obtain ⟨k0, v0⟩ := kv
    by_cases h0 : k0 = k
    · rw [mapLookup, if_pos h0] at h
      exact List.mem_cons.mpr (Or.inl (by rw [h0, Option.some.inj h]))
    · rw [mapLookup, if_neg h0] at h
      exact List.mem_cons_of_mem _ (ih h)

theorem wf_of_perm_items {T : Type} {tbl tbl' : Table T} (hwf : tbl.WF)
    (hp : List.Perm tbl.items tbl'.items) : tbl'.WF :=
  ⟨((hp.map Prod.fst).nodup_iff).mp hwf.1,
    fun kv hkv => hwf.2 kv (hp.mem_iff.mpr hkv)⟩

theorem ids_nodup_of_wf {T : Type} {tbl : Table T} (h : tbl.WF) :
    ((tbl.items.map Prod.snd).map Row.id).Nodup := by
  have he : (tbl.items.map Prod.snd).map Row.id = tbl.items.map Prod.fst := by
    rw [List.map_map]
    exact List.map_congr_left (fun kv hkv => h.2 kv hkv)
  rw [he]
  exact h.1

theorem flatten_map_sortRows_perm {T : Type} :
    ∀ groups : List (Str × List (Row T)),
      List.Perm ((groups.map (fun g => sortRows g.2)).flatten)
        ((groups.map Prod.snd).flatten) := by
  intro groups
  induction groups with
  | nil => simp
  | cons g t ih =>
    simp only [List.map_cons, List.flatten_cons]
    exact (sortRows_perm g.2).append ih


/-! ## Claim C3: save / load round-trip -/

/-- C3: for any sequence of upserts and deletes applied to a well-formed
table, saving the table (all writes succeeding) and loading the written
directory back — with a serializer that the deserializer inverts on the
stored rows and whose output contains no newline and is never blank —
succeeds and yields an in-memory state holding exactly the same rows: the
item lists are permutations of each other and every id looks up to the same
row, so the live set and the tombstone set equal the pre-save state. -/
theorem C3_round_trip {T : Type} [DecidableEq T] (sha256hex : Str → Str)
    (key : T → Str) (enc : Row T → Str) (dec : Str → Option (Row T))
    (tbl0 : Table T) (ops : List (Op T)) (dir : Option (List DirEntry))
    (hwf0 : tbl0.WF)
    (hdec : ∀ kv ∈ (Table.applyOps sha256hex key tbl0 ops).items,
      dec (enc kv.2) = some kv.2)
    (hnl : ∀ kv ∈ (Table.applyOps sha256hex key tbl0 ops).items,
      ¬ '\n' ∈ enc kv.2)
    (hnb : ∀ kv ∈ (Table.applyOps sha256hex key tbl0 ops).items,
      isBlank (enc kv.2) = false) :
    ∃ t' : Table T,
      Table.load dec (Table.applyOps sha256hex key tbl0 ops).shard_characters
          (Table.applyOps sha256hex key tbl0 ops).id_length
          (some (Table.save enc (Table.applyOps sha256hex key tbl0 ops)
            dir (fun _ => false)).1)
        = .ok t'
      ∧ List.Perm t'.items (Table.applyOps sha256hex key tbl0 ops).items
      ∧ ∀ i, mapLookup t'.items i
          = mapLookup (Table.applyOps sha256hex key tbl0 ops).items i := by
  set tbl := Table.applyOps sha256hex key tbl0 ops with htbl
  have hwf : tbl.WF := wf_applyOps sha256hex key ops hwf0
  obtain ⟨-, hview, -⟩ := save_noFail_char enc tbl dir
  have hmem3 : ∀ g ∈ groupByShard tbl.shard_characters tbl.items, ∀ r ∈ g.2,
      dec (enc r) = some r ∧ ¬ '\n' ∈ enc r ∧ isBlank (enc r) = false := by
    intro g hg r hr
    obtain ⟨hfil, -⟩ := mem_groupByShard tbl.shard_characters tbl.items hg
    have hrs : r ∈ tbl.items.map Prod.snd :=
      List.mem_of_mem_filter (hfil ▸ hr)
    obtain ⟨kv, hkv, hkvr⟩ := List.mem_map.mp hrs
    exact hkvr ▸ ⟨hdec kv hkv, hnl kv hkv, hnb kv hkv⟩
  have hload : loadFiles dec
      (Table.save enc tbl dir (fun _ => false)).1 []
      = .ok ((groupByShard tbl.shard_characters tbl.items).foldl (fun acc g =>
          (sortRows g.2).foldl (fun acc r => mapInsert acc r.id r) acc) []) := by
    rw [loadFiles_eq_shardView, hview]
    exact loadFiles_groups dec enc _
      (fun g hg r hr => (hmem3 g hg r hr).1)
      (fun g hg r hr => (hmem3 g hg r hr).2.1)
      (fun g hg r hr => (hmem3 g hg r hr).2.2) []
  have hfold : ((groupByShard tbl.shard_characters tbl.items).map
        (fun g => sortRows g.2)).flatten.foldl
          (fun acc r => mapInsert acc r.id r) ([] : List (Str × Row T))
      = (groupByShard tbl.shard_characters tbl.items).foldl (fun acc g =>
          (sortRows g.2).foldl (fun acc r => mapInsert acc r.id r) acc) [] := by
    rw [List.foldl_flatten, List.foldl_map]
  have hperm : List.Perm
      ((groupByShard tbl.shard_characters tbl.items).map
        (fun g => sortRows g.2)).flatten (tbl.items.map Prod.snd) :=
    (flatten_map_sortRows_perm _).trans
      (join_groupByShard_perm tbl.shard_characters tbl.items)
  have hndall : ((((groupByShard tbl.shard_characters tbl.items).map
      (fun g => sortRows g.2)).flatten).map Row.id).Nodup :=
    ((hperm.map Row.id).nodup_iff).mpr (ids_nodup_of_wf hwf)
  have hlku : ∀ i, mapLookup ((groupByShard tbl.shard_characters tbl.items).foldl
        (fun acc g => (sortRows g.2).foldl (fun acc r => mapInsert acc r.id r) acc) []) i
      = mapLookup tbl.items i := by
    intro i
    rw [← hfold, lookup_insertFold i _ hndall [],
      mapLookup_eq_find?_of_ids tbl.items hwf.2 i,
      ← find?_id_eq_of_perm hperm hndall i]
    rcases hfa : (((groupByShard tbl.shard_characters tbl.items).map
        (fun g => sortRows g.2)).flatten).find? (fun r => decide (r.id = i)) with _ | r
    · rw [hfa]
      rfl
    · rw [hfa]
  have hwf' : accWF ((groupByShard tbl.shard_characters tbl.items).foldl (fun acc g =>
      (sortRows g.2).foldl (fun acc r => mapInsert acc r.id r) acc) []) :=
    wf_loadFiles dec _ _ []
      ⟨List.nodup_nil, fun kv h => absurd h (List.not_mem_nil kv)⟩ hload
  refine ⟨⟨(groupByShard tbl.shard_characters tbl.items).foldl (fun acc g =>
      (sortRows g.2).foldl (fun acc r => mapInsert acc r.id r) acc) [],
      tbl.shard_characters, tbl.id_length⟩, ?_, ?_, hlku⟩
  · have h1 : Table.load dec tbl.shard_characters tbl.id_length
        (some (Table.save enc tbl dir (fun _ => false)).1)
      = match loadFiles dec (Table.save enc tbl dir (fun _ => false)).1 [] with
        | .error e => .error e
        | .ok items => .ok ⟨items, tbl.shard_characters, tbl.id_length⟩ := rfl
    rw [h1, hload]
  · rw [List.perm_ext_iff_of_nodup
      (List.Nodup.of_map Prod.fst hwf'.1) (List.Nodup.of_map Prod.fst hwf.1)]
    intro a
    obtain ⟨k, v⟩ := a
    constructor
    · intro h
      have hl := mapLookup_of_mem_nodup _ _ _ hwf'.1 h
      rw [hlku k] at hl
      exact mem_of_mapLookup_eq_some hl
    · intro h
      have hl := mapLookup_of_mem_nodup _ _ _ hwf.1 h
      rw [← hlku k] at hl
      exact mem_of_mapLookup_eq_some hl


theorem C3_witness :
    (⟨[], 1, 4⟩ : Table Unit).WF
    ∧ (∀ kv ∈ (Table.applyOps (fun _ => ['a','b','c','d','e','f'])
          (fun _ => ([] : Str)) (⟨[], 1, 4⟩ : Table Unit) [Op.upsert () 5]).items,
        (fun s => if s = ['L'] then
            some (Row.live ['a','b','c','d'] () (some 5)) else none)
          ((fun _ => ['L']) kv.2) = some kv.2)
    ∧ (∃ t' : Table Unit,
        Table.load (fun s => if s = ['L'] then
            some (Row.live ['a','b','c','d'] () (some 5)) else none)
          (Table.applyOps (fun _ => ['a','b','c','d','e','f'])
            (fun _ => ([] : Str)) (⟨[], 1, 4⟩ : Table Unit)
            [Op.upsert () 5]).shard_characters
          (Table.applyOps (fun _ => ['a','b','c','d','e','f'])
            (fun _ => ([] : Str)) (⟨[], 1, 4⟩ : Table Unit)
            [Op.upsert () 5]).id_length
          (some (Table.save (fun _ => ['L'])
            (Table.applyOps (fun _ => ['a','b','c','d','e','f'])
              (fun _ => ([] : Str)) (⟨[], 1, 4⟩ : Table Unit) [Op.upsert () 5])
            none (fun _ => false)).1)
          = .ok t'
        ∧ List.Perm t'.items (Table.applyOps (fun _ => ['a','b','c','d','e','f'])
            (fun _ => ([] : Str)) (⟨[], 1, 4⟩ : Table Unit) [Op.upsert () 5]).items
        ∧ ∀ i, mapLookup t'.items i
            = mapLookup (Table.applyOps (fun _ => ['a','b','c','d','e','f'])
                (fun _ => ([] : Str)) (⟨[], 1, 4⟩ : Table Unit)
                [Op.upsert () 5]).items i) :=
  ⟨⟨List.nodup_nil, fun kv h => absurd h (List.not_mem_nil kv)⟩, by decide,
    C3_round_trip (fun _ => ['a','b','c','d','e','f']) (fun _ => ([] : Str))
      (fun _ => ['L'])
      (fun s => if s = ['L'] then
          some (Row.live ['a','b','c','d'] () (some 5)) else none)
      (⟨[], 1, 4⟩ : Table Unit) [Op.upsert () 5] none
      ⟨List.nodup_nil, fun kv h => absurd h (List.not_mem_nil kv)⟩
      (by decide) (by decide) (by decide)⟩


/-! ## Claim C9: deterministic, sorted save output -/

theorem shardView_save_subset {T : Type} (enc : Row T → Str)
    (tbl tbl' : Table T) (dir dir' : Option (List DirEntry))
    (hwf : tbl.WF) (hperm : List.Perm tbl.items tbl'.items)
    (hsc : tbl.shard_characters = tbl'.shard_characters) :
    ∀ e ∈ shardView (Table.save enc tbl dir (fun _ => false)).1,
      e ∈ shardView (Table.save enc tbl' dir' (fun _ => false)).1 := by
  intro e he
  obtain ⟨-, hview, -⟩ := save_noFail_char enc tbl dir
  obtain ⟨-, hview', -⟩ := save_noFail_char enc tbl' dir'
  rw [hview] at he
  rw [hview']
  obtain ⟨g, hg, hge⟩ := List.mem_map.mp he
  obtain ⟨hfil, hne⟩ := mem_groupByShard tbl.shard_characters tbl.items hg
  have hpermf : List.Perm
      ((tbl.items.map Prod.snd).filter
        (fun r => decide (shardKey tbl'.shard_characters r.id = g.1)))
      ((tbl'.items.map Prod.snd).filter
        (fun r => decide (shardKey tbl'.shard_characters r.id = g.1))) :=
    (hperm.map Prod.snd).filter _
  rw [← hsc] at hpermf
  have hg2 : List.Perm g.2 ((tbl'.items.map Prod.snd).filter
      (fun r => decide (shardKey tbl'.shard_characters r.id = g.1))) := by
    rw [hfil, hsc]
    rw [hsc] at hpermf
    exact hpermf
  have hne' : ((tbl'.items.map Prod.snd).filter
      (fun r => decide (shardKey tbl'.shard_characters r.id = g.1))).isEmpty ≠ true := by
    intro h
    exact hne (hg2.trans (by rw [List.isEmpty_iff.mp h])).eq_nil
  have hl' : mapLookup (groupByShard tbl'.shard_characters tbl'.items) g.1
      = some ((tbl'.items.map Prod.snd).filter
          (fun r => decide (shardKey tbl'.shard_characters r.id = g.1))) := by
    rw [mapLookup_groupByShard, if_neg hne']
  have hmem' := mem_of_mapLookup_eq_some hl'
  refine List.mem_map.mpr ⟨_, hmem', ?_⟩
  have hndg : (g.2.map Row.id).Nodup := by
    rw [hfil]
    exact List.Nodup.sublist (List.Sublist.map Row.id (List.filter_sublist _))
      (ids_nodup_of_wf hwf)
  have hsr : sortRows ((tbl'.items.map Prod.snd).filter
        (fun r => decide (shardKey tbl'.shard_characters r.id = g.1)))
      = sortRows g.2 :=
    (sortRows_eq_of_perm hg2 hndg).symm
  rw [← hge]
  dsimp only
  rw [hsr]

/-- C9: save is deterministic — for a fixed map content (any two tables whose
item lists are permutations of each other, as `HashMap` iteration order is
arbitrary) and regardless of the previous directory contents, save succeeds
and produces exactly the same set of shard files, byte for byte; and every
produced shard file holds LF-terminated encoded rows sorted by id
ascending. -/
theorem C9_save_deterministic_sorted {T : Type} (enc : Row T → Str)
    (tbl tbl' : Table T) (dir dir' : Option (List DirEntry))
    (hwf : tbl.WF) (hperm : List.Perm tbl.items tbl'.items)
    (hsc : tbl.shard_characters = tbl'.shard_characters) :
    (∀ e, e ∈ shardView (Table.save enc tbl dir (fun _ => false)).1
        ↔ e ∈ shardView (Table.save enc tbl' dir' (fun _ => false)).1)
    ∧ ∀ e ∈ shardView (Table.save enc tbl dir (fun _ => false)).1,
        ∃ rows : List (Row T),
          e.access = FileAccess.readable (encodeRows enc rows) false
          ∧ List.Sorted (fun a b : Row T => lexLe a.id b.id = true) rows := by
  constructor
  · intro e
    exact ⟨shardView_save_subset enc tbl tbl' dir dir' hwf hperm hsc e,
      shardView_save_subset enc tbl' tbl dir' dir (wf_of_perm_items hwf hperm)
        hperm.symm hsc.symm e⟩
  · intro e he
    obtain ⟨-, hview, -⟩ := save_noFail_char enc tbl dir
    rw [hview] at he
    obtain ⟨g, hg, hge⟩ := List.mem_map.mp he
    exact ⟨sortRows g.2, by rw [← hge], sortRows_sorted g.2⟩

theorem C9_witness :
    (⟨[(['a'], Row.live ['a'] () (some 1)), (['b'], Row.tombstone ['b'] 2)],
        1, 1⟩ : Table Unit).WF
    ∧ List.Perm
        (⟨[(['a'], Row.live ['a'] () (some 1)), (['b'], Row.tombstone ['b'] 2)],
            1, 1⟩ : Table Unit).items
        (⟨[(['b'], Row.tombstone ['b'] 2), (['a'], Row.live ['a'] () (some 1))],
            1, 1⟩ : Table Unit).items
    ∧ ((∀ e, e ∈ shardView (Table.save (fun _ => ['L'])
            (⟨[(['a'], Row.live ['a'] () (some 1)), (['b'], Row.tombstone ['b'] 2)],
                1, 1⟩ : Table Unit) none (fun _ => false)).1
          ↔ e ∈ shardView (Table.save (fun _ => ['L'])
            (⟨[(['b'], Row.tombstone ['b'] 2), (['a'], Row.live ['a'] () (some 1))],
                1, 1⟩ : Table Unit) (some []) (fun _ => false)).1)
        ∧ ∀ e ∈ shardView (Table.save (fun _ => ['L'])
            (⟨[(['a'], Row.live ['a'] () (some 1)), (['b'], Row.tombstone ['b'] 2)],
                1, 1⟩ : Table Unit) none (fun _ => false)).1,
            ∃ rows : List (Row Unit),
              e.access = FileAccess.readable (encodeRows (fun _ => ['L']) rows) false
              ∧ List.Sorted (fun a b : Row Unit => lexLe a.id b.id = true) rows) :=
  ⟨⟨by decide, by decide⟩, by decide,
    C9_save_deterministic_sorted (fun _ => ['L'])
      (⟨[(['a'], Row.live ['a'] () (some 1)), (['b'], Row.tombstone ['b'] 2)],
          1, 1⟩ : Table Unit)
      (⟨[(['b'], Row.tombstone ['b'] 2), (['a'], Row.live ['a'] () (some 1))],
          1, 1⟩ : Table Unit)
      none (some []) ⟨by decide, by decide⟩ (by decide) rfl⟩


end Blogwarrior
